import Mathlib

/-!
# Nibble: the virtual CPU of `nibble.c`

A shallow embedding of the CPU core of `src/nibble.c`: the global machine state, the
fetch step, the decode/execute `switch`, and the `while (SR > 0)` run loop.

Conventions of the embedding.

* `byte_t` is `int8_t`; its values are integers in `-128..127`.  A C expression of type `int`
  that is stored into a `byte_t` object is reduced with `toByte` (wraparound modulo 256, which
  is what the usual compilers do for that conversion).
* On a byte promoted to `int`, `x >> 4` is the arithmetic shift, i.e. the floor division
  `x / 16`, and `x & 0xF` is `x % 16` (the non-negative remainder).  Lean's `/` and `%` on `Int`
  are exactly these for a positive divisor.
* Arrays are functions on indices; every access goes through `arrGet` / `arrSet`, which yield
  `none` outside the bounds of the array.  `none` stands for behaviour the C standard leaves
  undefined (out-of-bounds access, a shift by 32 or more).
* `debug` only writes to `stderr` when the debug flag is set and is left out.
* Standard input is a list of items for `scanf ("%d", ...)`, standard output a list of
  events, one per `printf` call of `run`.
-/

namespace Nibble

/-! ## Data model -/

/-- Number of RAM addresses (`#define RAM_N 128`). -/
def RAM_N : Int := 128

/-- Number of registers (`#define REG_N 16`). -/
def REG_N : Int := 16

/-- Status value written by Halt (`#define SR_SUCCESS 0`). -/
def SR_SUCCESS : Int := 0

/-- Status value written by a failing instruction (`#define SR_FAILURE -1`). -/
def SR_FAILURE : Int := -1

/-- Conversion of an `int` value to `byte_t`: reduction modulo 256 into `-128..127`. -/
def toByte (x : Int) : Int := (x + 128) % 256 - 128

/-- One item of standard input as `scanf ("%d", &val)` sees it: a decimal integer, or text
that is no integer. -/
inductive Tok where
  | num (val : Int)
  | junk
  deriving DecidableEq, Repr

/-- One `printf` of `run`: the prompt of Input, or the line of Output with its value. -/
inductive Out where
  | prompt
  | value (v : Int)
  deriving DecidableEq, Repr

/-- Text printed for an output event: `"IN: "` and `"OUT: %d\n"`. -/
def render : Out → String
  | Out.prompt => "IN: "
  | Out.value v => "OUT: " ++ toString v ++ "\n"

/-- The global variables of `nibble.c` (`MBR[2]` and `CIR[2]` as two fields each), together
with the two standard streams. -/
structure CPU where
  RAM : Int → Int
  REG : Int → Int
  PC : Int
  MAR : Int
  MBR0 : Int
  MBR1 : Int
  CIR0 : Int
  CIR1 : Int
  SR : Int
  LHS : Int
  RHS : Int
  stdin : List Tok
  stdout : List Out

/-- Read of `a[i]` in an array of `n` cells; `none` when `i` is outside `0..n-1`. -/
def arrGet (n : Int) (a : Int → Int) (i : Int) : Option Int :=
  if 0 ≤ i ∧ i < n then some (a i) else none

/-- Store `a[i] = v` in an array of `n` cells; `none` when `i` is outside `0..n-1`. -/
def arrSet (n : Int) (a : Int → Int) (i v : Int) : Option (Int → Int) :=
  if 0 ≤ i ∧ i < n then some (fun j => if j = i then v else a j) else none

/-- The function `load`: `fread (RAM, sizeof (byte_t), RAM_N, fp)` copies at most `RAM_N`
bytes of the file (octets `0..255`) to the start of `RAM`, the rest of `RAM` is kept. -/
def load (file : List Nat) (RAM : Int → Int) : Int → Int :=
  fun i =>
    if 0 ≤ i ∧ i < RAM_N then
      match file.get? i.toNat with
      | some b => toByte (Int.ofNat b)
      | none => RAM i
    else RAM i

/-- The state at the call of `run`: every global at its initialiser, `RAM` as given. -/
def boot (RAM : Int → Int) (stdin : List Tok) : CPU :=
  { RAM := RAM, REG := fun _ => 0, PC := 0, MAR := 0, MBR0 := 0, MBR1 := 0,
    CIR0 := 0, CIR1 := 0, SR := 1, LHS := 0, RHS := 0, stdin := stdin, stdout := [] }

/-! ## Fetch -/

/-- The FETCH block of `run`: `MAR = PC; MBR[0] = RAM[MAR]; MBR[1] = RAM[MAR + 1];`
`CIR[0] = MBR[0]; CIR[1] = MBR[1]; PC += 2;`. -/
def fetch (s : CPU) : Option CPU :=
  let MAR := s.PC
  match arrGet RAM_N s.RAM MAR with
  | none => none
  | some MBR0 =>
    match arrGet RAM_N s.RAM (MAR + 1) with
    | none => none
    | some MBR1 =>
      some { s with MAR := MAR, MBR0 := MBR0, MBR1 := MBR1, CIR0 := MBR0, CIR1 := MBR1,
                    PC := toByte (s.PC + 2) }

/-- The state a successful fetch leaves: the two bytes at `PC` in `MBR` and `CIR`, `PC`
advanced by 2. -/
def fetched (s : CPU) : CPU :=
  { s with MAR := s.PC, MBR0 := s.RAM s.PC, MBR1 := s.RAM (s.PC + 1),
           CIR0 := s.RAM s.PC, CIR1 := s.RAM (s.PC + 1), PC := toByte (s.PC + 2) }

/-! ## Decode -/

/-- The opcode, `(CIR[0] >> 4) & 0xF`; also the high nibble `(CIR[1] >> 4) & 0xF`. -/
def opc (b : Int) : Int := (b / 16) % 16

/-- The low nibble `b & 0xF` of an instruction byte. -/
def nib (b : Int) : Int := b % 16

/-! ## Execute -/

/-- Assignment `REG[R] = v`. -/
def setReg (s : CPU) (R v : Int) : Option CPU :=
  match arrSet REG_N s.REG R v with
  | none => none
  | some REG => some { s with REG := REG }

/-- Instructions `REG[R] = REG[S] op REG[T]` (Add, Subtract, AND, OR, XOR): the operands are
promoted to `int`, the result is converted back to `byte_t`. -/
def binop (op : Int → Int → Int) (s : CPU) : Option CPU :=
  let R := nib s.CIR0
  let S := opc s.CIR1
  let T := nib s.CIR1
  match arrGet REG_N s.REG S with
  | none => none
  | some a =>
    match arrGet REG_N s.REG T with
    | none => none
    | some b => setReg s R (toByte (op a b))

/-- Case `0x0`, Halt: `SR = SR_SUCCESS`. -/
def opHalt (s : CPU) : Option CPU :=
  some { s with SR := SR_SUCCESS }

/-- Case `0x1`, Read: `if (XY < 0) { SR = SR_FAILURE; break; } REG[R] = RAM[XY];`. -/
def opRead (s : CPU) : Option CPU :=
  let R := nib s.CIR0
  let XY := s.CIR1
  if XY < 0 then some { s with SR := SR_FAILURE }
  else
    match arrGet RAM_N s.RAM XY with
    | none => none
    | some v => setReg s R v

/-- Case `0x2`, Write: `if (XY < 0) { SR = SR_FAILURE; break; } RAM[XY] = REG[R];`. -/
def opWrite (s : CPU) : Option CPU :=
  let R := nib s.CIR0
  let XY := s.CIR1
  if XY < 0 then some { s with SR := SR_FAILURE }
  else
    match arrGet REG_N s.REG R with
    | none => none
    | some v =>
      match arrSet RAM_N s.RAM XY v with
      | none => none
      | some RAM => some { s with RAM := RAM }

/-- Case `0x3`, Copy: `REG[R] = XY`. -/
def opCopy (s : CPU) : Option CPU :=
  let R := nib s.CIR0
  let XY := s.CIR1
  setReg s R XY

/-- Case `0x4`, Duplicate: `REG[R] = REG[S]`. -/
def opDuplicate (s : CPU) : Option CPU :=
  let R := nib s.CIR0
  let S := opc s.CIR1
  match arrGet REG_N s.REG S with
  | none => none
  | some v => setReg s R v

/-- Case `0x7`, Shift: `REG[R] <<= XY` when `XY >= 0`, else `REG[R] >>= -XY`.  The register
is promoted to a 32-bit `int` and `-XY` is computed in `int`; a shift count of 32 or more is
undefined.  Below 32, `<<` is the multiplication by `2 ^ XY` and `>>` the arithmetic shift
(floor division by `2 ^ -XY`), also for a negative register, as the usual compilers define
them; the result is converted back to `byte_t`. -/
def opShift (s : CPU) : Option CPU :=
  let R := nib s.CIR0
  let XY := s.CIR1
  match arrGet REG_N s.REG R with
  | none => none
  | some v =>
    if XY ≥ 0 then
      if XY < 32 then setReg s R (toByte (v * 2 ^ XY.toNat)) else none
    else
      if -XY < 32 then setReg s R (toByte (v / 2 ^ (-XY).toNat)) else none

/-- Case `0x8`, NOT: `REG[R] = ~REG[S]`. -/
def opNot (s : CPU) : Option CPU :=
  let R := nib s.CIR0
  let S := opc s.CIR1
  match arrGet REG_N s.REG S with
  | none => none
  | some v => setReg s R (toByte (Int.lnot v))

/-- Case `0xC`, Compare: `LHS = L; RHS = R;` with `L` the high nibble of byte 1 and `R` the
low nibble of byte 0. -/
def opCompare (s : CPU) : Option CPU :=
  let R := nib s.CIR0
  let L := opc s.CIR1
  some { s with LHS := L, RHS := R }

/-- A conditional case of the Branch `switch`: `if (REG[LHS] rel REG[RHS]) PC = XY;`. -/
def jumpIf (rel : Int → Int → Bool) (s : CPU) : Option CPU :=
  let XY := s.CIR1
  match arrGet REG_N s.REG s.LHS with
  | none => none
  | some l =>
    match arrGet REG_N s.REG s.RHS with
    | none => none
    | some r => if rel l r then some { s with PC := XY } else some s

/-- Case `0xD`, Branch: the inner `switch (C)`. -/
def opBranch (s : CPU) : Option CPU :=
  let C := nib s.CIR0
  let XY := s.CIR1
  if C = 0 then some { s with PC := XY }
  else if C = 1 then jumpIf (fun l r => decide (l = r)) s
  else if C = 2 then jumpIf (fun l r => decide (l ≠ r)) s
  else if C = 3 then jumpIf (fun l r => decide (l < r)) s
  else if C = 4 then jumpIf (fun l r => decide (l > r)) s
  else if C = 5 then jumpIf (fun l r => decide (l ≤ r)) s
  else if C = 6 then jumpIf (fun l r => decide (l ≥ r)) s
  else some { s with SR := SR_FAILURE }

/-- Case `0xE`, Input.  The body of `do { ... } while (0)` runs once: each `continue` jumps
to the test of the loop, which is `0`.  `scanf` consumes an integer it can parse and leaves
text that is no integer in the stream; at the end of the stream it returns `EOF`. -/
def opInput (s : CPU) : Option CPU :=
  let R := nib s.CIR0
  let s1 := { s with stdout := s.stdout ++ [Out.prompt] }
  match s1.stdin with
  | [] => some s1
  | Tok.junk :: _ => some s1
  | Tok.num val :: rest =>
    let s2 := { s1 with stdin := rest }
    if 127 < val ∨ val < -128 then some s2
    else setReg s2 R val

/-- Case `0xF`, Output: `printf ("OUT: %d\n", REG[R])`. -/
def opOutput (s : CPU) : Option CPU :=
  let R := nib s.CIR0
  match arrGet REG_N s.REG R with
  | none => none
  | some v => some { s with stdout := s.stdout ++ [Out.value v] }

/-- The DECODE/EXECUTE block of `run`: `opc = (CIR[0] >> 4) & 0xF; switch (opc)`.  The
`switch` has no `default`; every value of `opc` is one of its sixteen cases. -/
def execute (s : CPU) : Option CPU :=
  let o := opc s.CIR0
  if o = 0 then opHalt s
  else if o = 1 then opRead s
  else if o = 2 then opWrite s
  else if o = 3 then opCopy s
  else if o = 4 then opDuplicate s
  else if o = 5 then binop (fun a b => a + b) s
  else if o = 6 then binop (fun a b => a - b) s
  else if o = 7 then opShift s
  else if o = 8 then opNot s
  else if o = 9 then binop Int.land s
  else if o = 10 then binop Int.lor s
  else if o = 11 then binop Int.xor s
  else if o = 12 then opCompare s
  else if o = 13 then opBranch s
  else if o = 14 then opInput s
  else if o = 15 then opOutput s
  else some s

/-! ## Run loop -/

/-- One pass through the body of the `while` loop: fetch, then decode and execute. -/
def cycle (s : CPU) : Option CPU :=
  (fetch s).bind execute

/-- The loop `while (SR > 0) { ... }` of `run`, unrolled at most `n` times.  The loop has been
left exactly when the resulting state has `SR ≤ 0`; a resulting state with `SR > 0` is the
state after `n` full cycles. -/
def run : Nat → CPU → Option CPU
  | 0, s => some s
  | n + 1, s => if s.SR > 0 then (cycle s).bind (run n) else some s

/-- Decode and execute the instruction with bytes `c0`, `c1` in state `s`. -/
def exec (c0 c1 : Int) (s : CPU) : Option CPU :=
  execute { s with CIR0 := c0, CIR1 := c1 }

/-! ## Notions used to state the properties -/

/-- The relation a Branch condition code selects, as the specification tabulates it:
`0` unconditional, `1` equal, `2` not-equal, `3` less-than, `4` greater-than,
`5` less-or-equal, `6` greater-or-equal, on the signed values `l = REG[LHS]`, `r = REG[RHS]`. -/
def condHolds (C l r : Int) : Prop :=
  C = 0 ∨ (C = 1 ∧ l = r) ∨ (C = 2 ∧ l ≠ r) ∨ (C = 3 ∧ l < r) ∨ (C = 4 ∧ l > r) ∨
    (C = 5 ∧ l ≤ r) ∨ (C = 6 ∧ l ≥ r)

/-- One cycle from `s` to `t` whose fetched instruction is not Compare (opcode `0xC`). -/
def otherStep (s t : CPU) : Prop :=
  opc (s.RAM s.PC) ≠ 12 ∧ cycle s = some t

/-- A sample program: Compare(L = 1, R = 2), Copy(1, 7), Branch-if-equal to address 32
(image `C2 10 31 07 D1 20`), on a machine whose registers are all zero at the start. -/
def compareDemo : CPU :=
  boot (load [0xC2, 0x10, 0x31, 0x07, 0xD1, 0x20] (fun _ => 0)) []

/-- The states in which C defines the behaviour of the coming cycle: `PC` and `PC + 1` are
addresses of `RAM`, the operand byte fits a `byte_t`, the comparison indices are register
indices, and a Shift has a count below 32. -/
def cycleOk (s : CPU) : Prop :=
  (0 ≤ s.PC ∧ s.PC + 1 < RAM_N) ∧
  (-128 ≤ s.RAM (s.PC + 1) ∧ s.RAM (s.PC + 1) ≤ 127) ∧
  (0 ≤ s.LHS ∧ s.LHS < REG_N) ∧ (0 ≤ s.RHS ∧ s.RHS < REG_N) ∧
  (opc (s.RAM s.PC) = 7 → -32 < s.RAM (s.PC + 1) ∧ s.RAM (s.PC + 1) < 32)

/-! ## Basic facts -/

theorem toByte_of_range (x : Int) (h1 : -128 ≤ x) (h2 : x ≤ 127) : toByte x = x := by
  unfold toByte; omega

theorem toByte_range (x : Int) : -128 ≤ toByte x ∧ toByte x ≤ 127 := by
  unfold toByte; omega

theorem nib_range (b : Int) : 0 ≤ nib b ∧ nib b < 16 := by
  unfold nib; omega

theorem opc_range (b : Int) : 0 ≤ opc b ∧ opc b < 16 := by
  unfold opc; omega

theorem arrGet_of_bounds (n : Int) (a : Int → Int) (i : Int) (h0 : 0 ≤ i) (h1 : i < n) :
    arrGet n a i = some (a i) := by
  simp [arrGet, h0, h1]

theorem getReg_nib (a : Int → Int) (b : Int) : arrGet REG_N a (nib b) = some (a (nib b)) :=
  arrGet_of_bounds _ _ _ (nib_range b).1 (nib_range b).2

theorem getReg_opc (a : Int → Int) (b : Int) : arrGet REG_N a (opc b) = some (a (opc b)) :=
  arrGet_of_bounds _ _ _ (opc_range b).1 (opc_range b).2

theorem setReg_nib (s : CPU) (b v : Int) :
    setReg s (nib b) v =
      some { s with REG := fun j => if j = nib b then v else s.REG j } := by
  have h := nib_range b
  simp [setReg, arrSet, REG_N, h.1, h.2]

theorem fetch_of_bounds (s : CPU) (h0 : 0 ≤ s.PC) (h1 : s.PC + 1 < RAM_N) :
    fetch s = some (fetched s) := by
  have h2 : s.PC < RAM_N := by omega
  have h3 : 0 ≤ s.PC + 1 := by omega
  simp [fetch, fetched, arrGet, h0, h1, h2, h3]

theorem cycle_of_bounds (s : CPU) (h0 : 0 ≤ s.PC) (h1 : s.PC + 1 < RAM_N) :
    cycle s = execute (fetched s) := by
  simp [cycle, fetch_of_bounds s h0 h1]

theorem run_of_halted (n : Nat) (s : CPU) (h : s.SR ≤ 0) : run n s = some s := by
  cases n with
  | zero => rfl
  | succ k =>
    have h2 : ¬ s.SR > 0 := by omega
    simp [run, h2]

theorem run_succ_of_cycle_halts (n : Nat) (s t : CPU) (hrun : s.SR > 0)
    (hc : cycle s = some t) (ht : t.SR ≤ 0) : run (n + 1) s = some t := by
  simp [run, hrun, hc, run_of_halted n t ht]

/-! ## Halt -/

/-- C1: in a running state (`SR > 0`) whose instruction at `PC` has opcode `0x0` (Halt), the
fetch-decode-execute cycle sets `SR` to `0`, and the run loop, whatever the number of cycles
it is allowed, stops after this single cycle in that state: halted-success. -/
theorem halt_terminates (s : CPU) (hrun : s.SR > 0) (h0 : 0 ≤ s.PC) (h1 : s.PC + 1 < RAM_N)
    (hop : opc (s.RAM s.PC) = 0) :
    ∃ t, cycle s = some t ∧ t.SR = 0 ∧ ∀ n, run (n + 1) s = some t := by
  have hc : cycle s = some { fetched s with SR := SR_SUCCESS } := by
    rw [cycle_of_bounds s h0 h1]
    simp [execute, opHalt, fetched, hop]
  exact ⟨_, hc, rfl, fun n => run_succ_of_cycle_halts n s _ hrun hc (by simp [SR_SUCCESS])⟩

/-- C1, an instance: the empty program (all of `RAM` zero) halts in its first cycle. -/
theorem halt_terminates_witness :
    ∃ t, cycle (boot (fun _ => 0) []) = some t ∧ t.SR = 0 ∧
      ∀ n, run (n + 1) (boot (fun _ => 0) []) = some t :=
  halt_terminates (boot (fun _ => 0) []) (by decide) (by decide) (by decide) (by decide)

/-! ## Copy, Output, Halt -/

theorem run_succ_of_cycle (n : Nat) (s t : CPU) (hrun : s.SR > 0) (hc : cycle s = some t) :
    run (n + 1) s = run n t := by
  simp [run, hrun, hc]

theorem run_succ_of_cycle_none (n : Nat) (s : CPU) (hrun : s.SR > 0) (hc : cycle s = none) :
    run (n + 1) s = none := by
  simp [run, hrun, hc]

theorem execute_halt (s : CPU) (hop : opc s.CIR0 = 0) :
    execute s = some { s with SR := SR_SUCCESS } := by
  simp [execute, opHalt, hop]

theorem execute_copy (s : CPU) (hop : opc s.CIR0 = 3) :
    execute s = some { s with REG := fun j => if j = nib s.CIR0 then s.CIR1 else s.REG j } := by
  simp [execute, opCopy, hop, setReg_nib]

theorem execute_output (s : CPU) (hop : opc s.CIR0 = 15) :
    execute s = some { s with stdout := s.stdout ++ [Out.value (s.REG (nib s.CIR0))] } := by
  simp [execute, opOutput, hop, getReg_nib]

/-- C2: for every register index `R` in `0..15` and every `v` in `-128..127`, the run from the
initial state on a memory that starts with the bytes `0x30|R, v, 0xF0|R, 0x00, 0x00, 0x00`
(Copy, Output, Halt) leaves the loop after three cycles with `SR = 0`, having printed exactly
one output line, whose value is `v`. -/
theorem copy_output_halt (R v : Int) (hR : 0 ≤ R ∧ R ≤ 15) (_hv : -128 ≤ v ∧ v ≤ 127)
    (RAM : Int → Int) (inp : List Tok)
    (m0 : RAM 0 = toByte (0x30 + R)) (m1 : RAM 1 = v) (m2 : RAM 2 = toByte (0xF0 + R))
    (_m3 : RAM 3 = 0) (m4 : RAM 4 = 0) (_m5 : RAM 5 = 0) :
    ∃ t, run 3 (boot RAM inp) = some t ∧ t.stdout = [Out.value v] ∧
      t.stdout.map render = ["OUT: " ++ toString v ++ "\n"] ∧ t.SR = 0 ∧
      ∀ n, run (n + 3) (boot RAM inp) = some t := by
  have e0 : RAM 0 = 48 + R := by rw [m0]; unfold toByte; omega
  have e2 : RAM 2 = R - 16 := by rw [m2]; unfold toByte; omega
  have o0 : opc (48 + R) = 3 := by unfold opc; omega
  have n0 : nib (48 + R) = R := by unfold nib; omega
  have o2 : opc (R - 16) = 15 := by unfold opc; omega
  have n2 : nib (R - 16) = R := by unfold nib; omega
  have t2 : toByte 2 = 2 := by decide
  have t4 : toByte 4 = 4 := by decide
  -- first cycle: Copy
  have c1 := cycle_of_bounds (boot RAM inp) (by simp [boot]) (by simp [boot, RAM_N])
  rw [execute_copy _ (by simp [fetched, boot, e0, o0])] at c1
  obtain ⟨s1, c1, p1, r1, q1, g1, w1⟩ : ∃ s1, cycle (boot RAM inp) = some s1 ∧ s1.PC = 2 ∧
      s1.RAM = RAM ∧ s1.SR = 1 ∧ s1.REG R = v ∧ s1.stdout = [] :=
    ⟨_, c1, by simp [fetched, boot, t2], by simp [fetched, boot], by simp [fetched, boot],
      by simp [fetched, boot, e0, n0, m1], by simp [fetched, boot]⟩
  -- second cycle: Output
  have c2 := cycle_of_bounds s1 (by rw [p1]; decide) (by rw [p1]; decide)
  rw [execute_output _ (by simp [fetched, p1, r1, e2, o2])] at c2
  obtain ⟨s2, c2, p2, r2, q2, w2⟩ : ∃ s2, cycle s1 = some s2 ∧ s2.PC = 4 ∧
      s2.RAM = RAM ∧ s2.SR = 1 ∧ s2.stdout = [Out.value v] :=
    ⟨_, c2, by simp [fetched, p1, t4], by simp [fetched, r1], by simp [fetched, q1],
      by simp [fetched, p1, r1, e2, n2, g1, w1]⟩
  -- third cycle: Halt
  have c3 := cycle_of_bounds s2 (by rw [p2]; decide) (by rw [p2]; decide)
  rw [execute_halt _ (by simp [fetched, p2, r2, m4, opc])] at c3
  obtain ⟨s3, c3, q3, w3⟩ : ∃ s3, cycle s2 = some s3 ∧ s3.SR = 0 ∧
      s3.stdout = [Out.value v] :=
    ⟨_, c3, by simp [SR_SUCCESS], by simp [fetched, w2]⟩
  have hb : (boot RAM inp).SR > 0 := by simp [boot]
  have h3 : ∀ n, run (n + 3) (boot RAM inp) = some s3 := by
    intro n
    rw [run_succ_of_cycle _ _ _ hb c1, run_succ_of_cycle _ _ _ (by omega) c2,
      run_succ_of_cycle_halts _ _ _ (by omega) c3 (by omega)]
  exact ⟨s3, h3 0, w3, by simp [w3, render], q3, h3⟩

/-- C2, the example of the specification: the image `30 05 F0 00 00 00` prints `OUT: 5` and
halts with success. -/
theorem copy_output_halt_witness :
    ∃ t, run 3 (boot (load [0x30, 0x05, 0xF0, 0x00, 0x00, 0x00] (fun _ => 0)) []) = some t ∧
      t.stdout.map render = ["OUT: 5\n"] ∧ t.SR = 0 := by
  obtain ⟨t, h1, _, h2, h3, _⟩ :=
    copy_output_halt 0 5 (by decide) (by decide)
      (load [0x30, 0x05, 0xF0, 0x00, 0x00, 0x00] (fun _ => 0)) []
      (by decide) (by decide) (by decide) (by decide) (by decide) (by decide)
  exact ⟨t, h1, h2, h3⟩

/-! ## Frame lemmas: what an instruction leaves alone -/

theorem setReg_some (s t : CPU) (R v : Int) (h : setReg s R v = some t) :
    t = { s with REG := t.REG } := by
  unfold setReg at h
  split at h
  · exact absurd h (by simp)
  · simp only [Option.some.injEq] at h
    rw [← h]

theorem binop_some (op : Int → Int → Int) (s t : CPU) (h : binop op s = some t) :
    t = { s with REG := t.REG } := by
  unfold binop at h
  simp only [] at h
  split at h
  · exact absurd h (by simp)
  · split at h
    · exact absurd h (by simp)
    · exact setReg_some _ _ _ _ h

theorem opShift_some (s t : CPU) (h : opShift s = some t) : t = { s with REG := t.REG } := by
  unfold opShift at h
  simp only [] at h
  split at h
  · exact absurd h (by simp)
  · split_ifs at h
    · exact setReg_some _ _ _ _ h
    · exact setReg_some _ _ _ _ h

theorem jumpIf_some (rel : Int → Int → Bool) (s t : CPU) (h : jumpIf rel s = some t) :
    t = { s with PC := t.PC } := by
  unfold jumpIf at h
  simp only [] at h
  split at h
  · exact absurd h (by simp)
  · split at h
    · exact absurd h (by simp)
    · split_ifs at h
      · simp only [Option.some.injEq] at h
        rw [← h]
      · simp only [Option.some.injEq] at h
        rw [← h]

theorem opBranch_some (s t : CPU) (h : opBranch s = some t) :
    t = { s with PC := t.PC, SR := t.SR } := by
  unfold opBranch at h
  simp only [] at h
  split_ifs at h
  · simp only [Option.some.injEq] at h
    rw [← h]
  all_goals first
    | (have h2 := jumpIf_some _ _ _ h; rw [h2])
    | (simp only [Option.some.injEq] at h; rw [← h])

theorem opInput_some (s t : CPU) (h : opInput s = some t) :
    t = { s with REG := t.REG, stdin := t.stdin, stdout := t.stdout } := by
  unfold opInput at h
  simp only [] at h
  split at h
  · simp only [Option.some.injEq] at h
    rw [← h]
  · simp only [Option.some.injEq] at h
    rw [← h]
  · split_ifs at h
    · simp only [Option.some.injEq] at h
      rw [← h]
    · have h2 := setReg_some _ _ _ _ h
      rw [h2]

theorem opRead_some (s t : CPU) (h : opRead s = some t) :
    t = { s with REG := t.REG, SR := t.SR } := by
  unfold opRead at h
  simp only [] at h
  split_ifs at h
  · simp only [Option.some.injEq] at h
    rw [← h]
  · split at h
    · exact absurd h (by simp)
    · have h2 := setReg_some _ _ _ _ h
      rw [h2]

theorem opWrite_some (s t : CPU) (h : opWrite s = some t) :
    t = { s with RAM := t.RAM, SR := t.SR } := by
  unfold opWrite at h
  simp only [] at h
  split_ifs at h
  · simp only [Option.some.injEq] at h
    rw [← h]
  · split at h
    · exact absurd h (by simp)
    · split at h
      · exact absurd h (by simp)
      · simp only [Option.some.injEq] at h
        rw [← h]

theorem opDuplicate_some (s t : CPU) (h : opDuplicate s = some t) :
    t = { s with REG := t.REG } := by
  unfold opDuplicate at h
  simp only [] at h
  split at h
  · exact absurd h (by simp)
  · exact setReg_some _ _ _ _ h

theorem opNot_some (s t : CPU) (h : opNot s = some t) : t = { s with REG := t.REG } := by
  unfold opNot at h
  simp only [] at h
  split at h
  · exact absurd h (by simp)
  · exact setReg_some _ _ _ _ h

theorem opOutput_some (s t : CPU) (h : opOutput s = some t) :
    t = { s with stdout := t.stdout } := by
  unfold opOutput at h
  simp only [] at h
  split at h
  · exact absurd h (by simp)
  · simp only [Option.some.injEq] at h
    rw [← h]

/-! ## The dispatch of `execute`, one opcode at a time -/

theorem opc_cases (b : Int) :
    opc b = 0 ∨ opc b = 1 ∨ opc b = 2 ∨ opc b = 3 ∨ opc b = 4 ∨ opc b = 5 ∨ opc b = 6 ∨
    opc b = 7 ∨ opc b = 8 ∨ opc b = 9 ∨ opc b = 10 ∨ opc b = 11 ∨ opc b = 12 ∨ opc b = 13 ∨
    opc b = 14 ∨ opc b = 15 := by
  have h := opc_range b
  omega

/-- Only Compare writes the comparison indices. -/
theorem execute_keeps_LHS_RHS (s t : CPU) (h : execute s = some t) (hop : opc s.CIR0 ≠ 12) :
    t.LHS = s.LHS ∧ t.RHS = s.RHS := by
  rcases opc_cases s.CIR0 with h0 | h0 | h0 | h0 | h0 | h0 | h0 | h0 | h0 | h0 | h0 | h0 | h0 |
    h0 | h0 | h0
  all_goals simp [execute, h0] at h
  · simp only [opHalt, Option.some.injEq] at h
    rw [← h]; exact ⟨rfl, rfl⟩
  · rw [opRead_some _ _ h]; exact ⟨rfl, rfl⟩
  · rw [opWrite_some _ _ h]; exact ⟨rfl, rfl⟩
  · rw [setReg_some _ _ _ _ h]; exact ⟨rfl, rfl⟩
  · rw [opDuplicate_some _ _ h]; exact ⟨rfl, rfl⟩
  · rw [binop_some _ _ _ h]; exact ⟨rfl, rfl⟩
  · rw [binop_some _ _ _ h]; exact ⟨rfl, rfl⟩
  · rw [opShift_some _ _ h]; exact ⟨rfl, rfl⟩
  · rw [opNot_some _ _ h]; exact ⟨rfl, rfl⟩
  · rw [binop_some _ _ _ h]; exact ⟨rfl, rfl⟩
  · rw [binop_some _ _ _ h]; exact ⟨rfl, rfl⟩
  · rw [binop_some _ _ _ h]; exact ⟨rfl, rfl⟩
  · exact absurd h0 hop
  · rw [opBranch_some _ _ h]; exact ⟨rfl, rfl⟩
  · rw [opInput_some _ _ h]; exact ⟨rfl, rfl⟩
  · rw [opOutput_some _ _ h]; exact ⟨rfl, rfl⟩

/-! ## Add -/

theorem binop_eq (op : Int → Int → Int) (s : CPU) :
    binop op s =
      some { s with
        REG := fun j =>
          if j = nib s.CIR0 then toByte (op (s.REG (opc s.CIR1)) (s.REG (nib s.CIR1)))
          else s.REG j } := by
  simp [binop, getReg_nib, getReg_opc, setReg_nib]

/-- C3: for every state and all register indices `R`, `S`, `T` in `0..15` (aliased or not),
executing Add(R,S,T), the instruction with bytes `0x50|R` and `S<<4|T`, succeeds and leaves in
`REG[R]` the value in `-128..127` that is congruent modulo 256 to `REG[S] + REG[T]` taken
before the instruction; `SR` is not changed. -/
theorem add_wraps (s : CPU) (R S T : Int) (hR : 0 ≤ R ∧ R ≤ 15) (hS : 0 ≤ S ∧ S ≤ 15)
    (hT : 0 ≤ T ∧ T ≤ 15) :
    ∃ t, exec (0x50 + R) (toByte (16 * S + T)) s = some t ∧
      t.REG R = toByte (s.REG S + s.REG T) ∧
      (-128 ≤ t.REG R ∧ t.REG R ≤ 127) ∧ (t.REG R - (s.REG S + s.REG T)) % 256 = 0 ∧
      t.SR = s.SR := by
  have o0 : opc (80 + R) = 5 := by unfold opc; omega
  have n0 : nib (80 + R) = R := by unfold nib; omega
  have o1 : opc (toByte (16 * S + T)) = S := by unfold opc toByte; omega
  have n1 : nib (toByte (16 * S + T)) = T := by unfold nib toByte; omega
  have he : exec (0x50 + R) (toByte (16 * S + T)) s =
      some { s with
        CIR0 := 80 + R
        CIR1 := toByte (16 * S + T)
        REG := fun j => if j = R then toByte (s.REG S + s.REG T) else s.REG j } := by
    simp [exec, execute, o0, binop_eq, n0, o1, n1]
  refine ⟨_, he, by simp, ?_, ?_, rfl⟩
  · simpa using toByte_range (s.REG S + s.REG T)
  · simp only [if_true]
    unfold toByte
    omega

/-- C3, an instance with aliasing and overflow: `REG[1] = 100`, Add(1,1,1) leaves
`REG[1] = -56` (200 - 256) and `SR = 1`. -/
theorem add_wraps_witness :
    ∃ t, exec 0x51 0x11 { boot (fun _ => 0) [] with REG := fun _ => 100 } = some t ∧
      t.REG 1 = -56 ∧ t.SR = 1 := by
  obtain ⟨t, h1, h2, _, _, h3⟩ :=
    add_wraps { boot (fun _ => 0) [] with REG := fun _ => 100 } 1 1 1
      (by decide) (by decide) (by decide)
  exact ⟨t, h1, h2, h3⟩

/-! ## Read and Write -/

theorem opRead_neg (s : CPU) (h : s.CIR1 < 0) : opRead s = some { s with SR := SR_FAILURE } := by
  simp [opRead, h]

theorem opWrite_neg (s : CPU) (h : s.CIR1 < 0) :
    opWrite s = some { s with SR := SR_FAILURE } := by
  simp [opWrite, h]

theorem opRead_ok (s : CPU) (h0 : 0 ≤ s.CIR1) (h1 : s.CIR1 < RAM_N) :
    opRead s =
      some { s with REG := fun j => if j = nib s.CIR0 then s.RAM s.CIR1 else s.REG j } := by
  have h2 : ¬ s.CIR1 < 0 := by omega
  simp [opRead, h2, arrGet_of_bounds _ _ _ h0 h1, setReg_nib]

theorem opWrite_ok (s : CPU) (h0 : 0 ≤ s.CIR1) (h1 : s.CIR1 < RAM_N) :
    opWrite s =
      some { s with RAM := fun j => if j = s.CIR1 then s.REG (nib s.CIR0) else s.RAM j } := by
  have h2 : ¬ s.CIR1 < 0 := by omega
  simp [opWrite, h2, getReg_nib, arrSet, h0, h1]

/-- C5: in a running state whose instruction at `PC` is Read (opcode `0x1`) or Write (opcode
`0x2`) with a negative address operand, the cycle sets `SR` to `-1`, and the run loop,
whatever the number of cycles it is allowed, stops after this single cycle in that state: no
further instruction is executed. -/
theorem negative_address_halts (s : CPU) (hrun : s.SR > 0) (h0 : 0 ≤ s.PC)
    (h1 : s.PC + 1 < RAM_N) (hop : opc (s.RAM s.PC) = 1 ∨ opc (s.RAM s.PC) = 2)
    (hneg : s.RAM (s.PC + 1) < 0) :
    ∃ t, cycle s = some t ∧ t.SR = -1 ∧ t.SR < 0 ∧ ∀ n, run (n + 1) s = some t := by
  have hc : cycle s = some { fetched s with SR := SR_FAILURE } := by
    rw [cycle_of_bounds s h0 h1]
    have hx : (fetched s).CIR1 < 0 := hneg
    rcases hop with hop | hop
    · have ho : opc (fetched s).CIR0 = 1 := hop
      simp [execute, ho, opRead_neg _ hx]
    · have ho : opc (fetched s).CIR0 = 2 := hop
      simp [execute, ho, opWrite_neg _ hx]
  exact ⟨_, hc, rfl, by simp [SR_FAILURE],
    fun n => run_succ_of_cycle_halts n s _ hrun hc (by simp [SR_FAILURE])⟩

/-- C5, an instance: the image `10 FF`, Read of register 0 from address `-1`, stops the run
in its first cycle with `SR = -1`. -/
theorem negative_address_halts_witness :
    ∃ t, cycle (boot (load [0x10, 0xFF] (fun _ => 0)) []) = some t ∧ t.SR = -1 ∧
      ∀ n, run (n + 1) (boot (load [0x10, 0xFF] (fun _ => 0)) []) = some t := by
  obtain ⟨t, h1, h2, _, h3⟩ :=
    negative_address_halts (boot (load [0x10, 0xFF] (fun _ => 0)) [])
      (by decide) (by decide) (by decide) (Or.inl (by decide)) (by decide)
  exact ⟨t, h1, h2, h3⟩

/-- C6: for every state, all register indices `R`, `R2` in `0..15` and every address `a` in
`0..127`, executing Write(R, a) (bytes `0x20|R`, `a`) and then Read(R2, a) (bytes `0x10|R2`,
`a`) succeeds and leaves in `REG[R2]` the value `REG[R]` held before the Write. -/
theorem write_read_roundtrip (s : CPU) (R R2 a : Int) (hR : 0 ≤ R ∧ R ≤ 15)
    (hR2 : 0 ≤ R2 ∧ R2 ≤ 15) (ha : 0 ≤ a ∧ a ≤ 127) :
    ∃ s1 s2, exec (0x20 + R) a s = some s1 ∧ exec (0x10 + R2) a s1 = some s2 ∧
      s2.REG R2 = s.REG R := by
  have o0 : opc (32 + R) = 2 := by unfold opc; omega
  have n0 : nib (32 + R) = R := by unfold nib; omega
  have o1 : opc (16 + R2) = 1 := by unfold opc; omega
  have n1 : nib (16 + R2) = R2 := by unfold nib; omega
  have ha1 : a < RAM_N := by unfold RAM_N; omega
  have e1 : exec (0x20 + R) a s =
      some { s with
        CIR0 := 32 + R
        CIR1 := a
        RAM := fun j => if j = a then s.REG R else s.RAM j } := by
    have hw := opWrite_ok { s with CIR0 := 32 + R, CIR1 := a } ha.1 ha1
    simp only [n0] at hw
    simp [exec, execute, o0, hw]
  obtain ⟨s1, e1, hcell⟩ : ∃ s1, exec (0x20 + R) a s = some s1 ∧ s1.RAM a = s.REG R :=
    ⟨_, e1, by simp⟩
  have hr := opRead_ok { s1 with CIR0 := 16 + R2, CIR1 := a } ha.1 ha1
  have e2 : exec (0x10 + R2) a s1 = opRead { s1 with CIR0 := 16 + R2, CIR1 := a } := by
    simp [exec, execute, o1]
  rw [hr] at e2
  exact ⟨s1, _, e1, e2, by simp [n1, hcell]⟩

/-- C6, an instance: with `REG[3] = 42`, Write(3, 127) then Read(5, 127) gives
`REG[5] = 42`. -/
theorem write_read_roundtrip_witness :
    ∃ s1 s2,
      exec 0x23 127 { boot (fun _ => 0) [] with REG := fun j => if j = 3 then 42 else 0 }
        = some s1 ∧
      exec 0x15 127 s1 = some s2 ∧ s2.REG 5 = 42 := by
  obtain ⟨s1, s2, h1, h2, h3⟩ :=
    write_read_roundtrip { boot (fun _ => 0) [] with REG := fun j => if j = 3 then 42 else 0 }
      3 5 127 (by decide) (by decide) (by decide)
  exact ⟨s1, s2, h1, h2, h3⟩

/-! ## Branch -/

theorem jumpIf_eq (rel : Int → Int → Bool) (s : CPU) (hL : 0 ≤ s.LHS ∧ s.LHS < REG_N)
    (hR : 0 ≤ s.RHS ∧ s.RHS < REG_N) :
    jumpIf rel s =
      some (if rel (s.REG s.LHS) (s.REG s.RHS) = true then { s with PC := s.CIR1 } else s) := by
  simp only [jumpIf, arrGet_of_bounds _ _ _ hL.1 hL.2, arrGet_of_bounds _ _ _ hR.1 hR.2]
  split_ifs <;> rfl

theorem opBranch_invalid (s : CPU) (hC : 7 ≤ nib s.CIR0) :
    opBranch s = some { s with SR := SR_FAILURE } := by
  have c0 : ¬ nib s.CIR0 = 0 := by omega
  have c1 : ¬ nib s.CIR0 = 1 := by omega
  have c2 : ¬ nib s.CIR0 = 2 := by omega
  have c3 : ¬ nib s.CIR0 = 3 := by omega
  have c4 : ¬ nib s.CIR0 = 4 := by omega
  have c5 : ¬ nib s.CIR0 = 5 := by omega
  have c6 : ¬ nib s.CIR0 = 6 := by omega
  simp [opBranch, c0, c1, c2, c3, c4, c5, c6]

theorem cycle_branch_invalid (s : CPU) (h0 : 0 ≤ s.PC) (h1 : s.PC + 1 < RAM_N)
    (hop : opc (s.RAM s.PC) = 13) (hC : 7 ≤ nib (s.RAM s.PC)) :
    cycle s = some { fetched s with SR := SR_FAILURE } := by
  rw [cycle_of_bounds s h0 h1]
  have ho : opc (fetched s).CIR0 = 13 := hop
  have hc : 7 ≤ nib (fetched s).CIR0 := hC
  simp [execute, ho, opBranch_invalid _ hc]

/-- C7, as the code has it: in a running state whose instruction at `PC` is a Branch (opcode
`0xD`) with a condition code in `0x7..0xF`, the fetch advances `PC` by 2 (wrapping in a
signed byte), the execution of the Branch sets `SR` to `-1` and leaves that advanced `PC` as
it is, and the run loop stops after this single cycle in that state. -/
theorem branch_bad_condition (s : CPU) (hrun : s.SR > 0) (h0 : 0 ≤ s.PC)
    (h1 : s.PC + 1 < RAM_N) (hop : opc (s.RAM s.PC) = 13) (hC : 7 ≤ nib (s.RAM s.PC)) :
    ∃ u t, fetch s = some u ∧ execute u = some t ∧ cycle s = some t ∧
      u.PC = toByte (s.PC + 2) ∧ t.PC = u.PC ∧ t.SR = -1 ∧
      ∀ n, run (n + 1) s = some t := by
  have hc := cycle_branch_invalid s h0 h1 hop hC
  have he : execute (fetched s) = some { fetched s with SR := SR_FAILURE } := by
    rw [← cycle_of_bounds s h0 h1]; exact hc
  exact ⟨fetched s, _, fetch_of_bounds s h0 h1, he, hc, rfl, rfl, rfl,
    fun n => run_succ_of_cycle_halts n s _ hrun hc (by simp [SR_FAILURE])⟩

/-- C7, an instance: the image `D7 00` at `PC = 0` stops with `SR = -1` and `PC = 2`. -/
theorem branch_bad_condition_witness :
    ∃ t, cycle (boot (load [0xD7, 0x00] (fun _ => 0)) []) = some t ∧ t.PC = 2 ∧ t.SR = -1 := by
  obtain ⟨u, t, _, _, h1, h2, h3, h4, _⟩ :=
    branch_bad_condition (boot (load [0xD7, 0x00] (fun _ => 0)) [])
      (by decide) (by decide) (by decide) (by decide) (by decide)
  exact ⟨t, h1, by rw [h3, h2]; decide, h4⟩

/-- C7 as stated fails: for the image `D7 00`, a Branch with condition code `0x7` at
`PC = 0`, the cycle ends with `SR = -1` and `PC = 2`, not with the `PC = 0` it started
from. -/
theorem branch_bad_condition_moves_PC :
    (boot (load [0xD7, 0x00] (fun _ => 0)) []).SR > 0 ∧
    (boot (load [0xD7, 0x00] (fun _ => 0)) []).PC = 0 ∧
    opc ((boot (load [0xD7, 0x00] (fun _ => 0)) []).RAM 0) = 13 ∧
    nib ((boot (load [0xD7, 0x00] (fun _ => 0)) []).RAM 0) = 7 ∧
    (cycle (boot (load [0xD7, 0x00] (fun _ => 0)) [])).map (fun t => (t.SR, t.PC))
      = some (-1, 2) := by
  refine ⟨by decide, by decide, by decide, by decide, ?_⟩
  rw [cycle_branch_invalid _ (by decide) (by decide) (by decide) (by decide)]
  decide

/-- A Branch with a condition code in `0..6`, in a state with valid comparison indices. -/
theorem cycle_branch (s : CPU) (h0 : 0 ≤ s.PC) (h1 : s.PC + 1 < RAM_N)
    (hop : opc (s.RAM s.PC) = 13) (hC : nib (s.RAM s.PC) ≤ 6)
    (hL : 0 ≤ s.LHS ∧ s.LHS < REG_N) (hR : 0 ≤ s.RHS ∧ s.RHS < REG_N) :
    ∃ t, cycle s = some t ∧
      (condHolds (nib (s.RAM s.PC)) (s.REG s.LHS) (s.REG s.RHS) → t.PC = s.RAM (s.PC + 1)) ∧
      (¬ condHolds (nib (s.RAM s.PC)) (s.REG s.LHS) (s.REG s.RHS) →
        t.PC = toByte (s.PC + 2)) ∧
      t.SR = s.SR ∧ t.REG = s.REG ∧ t.RAM = s.RAM := by
  have hc := cycle_of_bounds s h0 h1
  have ho : opc (fetched s).CIR0 = 13 := hop
  have hL2 : 0 ≤ (fetched s).LHS ∧ (fetched s).LHS < REG_N := hL
  have hR2 : 0 ≤ (fetched s).RHS ∧ (fetched s).RHS < REG_N := hR
  have hn := nib_range (s.RAM s.PC)
  have hcases : nib (s.RAM s.PC) = 0 ∨ nib (s.RAM s.PC) = 1 ∨ nib (s.RAM s.PC) = 2 ∨
      nib (s.RAM s.PC) = 3 ∨ nib (s.RAM s.PC) = 4 ∨ nib (s.RAM s.PC) = 5 ∨
      nib (s.RAM s.PC) = 6 := by omega
  rcases hcases with c | c | c | c | c | c | c
  all_goals
    have c2 : nib (fetched s).CIR0 = _ := c
    simp only [execute, ho, opBranch, c2, jumpIf_eq _ _ hL2 hR2] at hc
    simp at hc
  · exact ⟨_, hc, fun _ => rfl, fun h => absurd (Or.inl c) h, rfl, rfl, rfl⟩
  all_goals
    split_ifs at hc with hif
    all_goals
      simp only [fetched] at hif
      refine ⟨_, hc, ?_, ?_, rfl, rfl, rfl⟩
      · intro h
        simp only [condHolds, c] at h
        norm_num at h
        first
          | rfl
          | exact absurd h hif
          | (exfalso; omega)
      · intro h
        simp only [condHolds, c] at h
        norm_num at h
        first
          | rfl
          | exact absurd hif h
          | (exfalso; omega)

/-- C9: for every state with valid comparison indices whose instruction at `PC` is a Branch
with condition code `C` in `0..6` and target `XY`, the cycle succeeds; with `l = REG[LHS]` and
`r = REG[RHS]`, `PC` becomes `XY` when the relation selected by `C` holds and is the address
following the Branch when it does not (so, unless `XY` is that very address, `PC = XY` exactly
when the relation holds); `SR`, the registers and the memory are unchanged. -/
theorem branch_table (s : CPU) (h0 : 0 ≤ s.PC) (h1 : s.PC + 1 < RAM_N)
    (hop : opc (s.RAM s.PC) = 13) (hC : nib (s.RAM s.PC) ≤ 6)
    (hL : 0 ≤ s.LHS ∧ s.LHS < REG_N) (hR : 0 ≤ s.RHS ∧ s.RHS < REG_N) :
    ∃ t, cycle s = some t ∧
      (condHolds (nib (s.RAM s.PC)) (s.REG s.LHS) (s.REG s.RHS) → t.PC = s.RAM (s.PC + 1)) ∧
      (¬ condHolds (nib (s.RAM s.PC)) (s.REG s.LHS) (s.REG s.RHS) →
        t.PC = toByte (s.PC + 2)) ∧
      (s.RAM (s.PC + 1) ≠ toByte (s.PC + 2) →
        (t.PC = s.RAM (s.PC + 1) ↔
          condHolds (nib (s.RAM s.PC)) (s.REG s.LHS) (s.REG s.RHS))) ∧
      t.SR = s.SR ∧ t.REG = s.REG ∧ t.RAM = s.RAM := by
  obtain ⟨t, ht, hyes, hno, hsr, hreg, hram⟩ := cycle_branch s h0 h1 hop hC hL hR
  refine ⟨t, ht, hyes, hno, ?_, hsr, hreg, hram⟩
  intro hne
  constructor
  · intro h
    by_contra hn2
    rw [hno hn2] at h
    exact hne h.symm
  · exact hyes

/-- C9, an instance: `REG[1] = -5`, `REG[2] = 3`, `LHS = 1`, `RHS = 2`; the Branch `D3 10`
(less-than, target 16) is taken, because `-5 < 3` as signed values. -/
theorem branch_table_witness :
    ∃ t, cycle { boot (load [0xD3, 0x10] (fun _ => 0)) [] with
                 REG := fun j => if j = 1 then -5 else 3, LHS := 1, RHS := 2 } = some t ∧
      t.PC = 16 ∧ t.SR = 1 := by
  obtain ⟨t, h1, h2, _, _, h3, _⟩ :=
    branch_table { boot (load [0xD3, 0x10] (fun _ => 0)) [] with
                   REG := fun j => if j = 1 then -5 else 3, LHS := 1, RHS := 2 }
      (by decide) (by decide) (by decide) (by decide) (by decide) (by decide)
  exact ⟨t, h1, (h2 (by unfold condHolds; decide)).trans (by decide), h3⟩

/-! ## Input -/

/-- C8 fails on the code: the program `30 2A E0 00 00 00` (Copy 42 to register 0, Input to
register 0, Halt) run on the input `200`, `5` prompts once, consumes the out-of-range `200`,
does not read the valid `5`, and halts with the stale `42` in register 0. -/
theorem input_no_retry :
    (run 3 (boot (load [0x30, 0x2A, 0xE0, 0x00, 0x00, 0x00] (fun _ => 0))
        [Tok.num 200, Tok.num 5])).map
      (fun t => (t.SR, t.REG 0, t.stdin, t.stdout))
      = some (0, 42, [Tok.num 5], [Out.prompt]) := by
  decide

/-! ## Decoder fields -/

theorem setReg_of_bounds (s : CPU) (R v : Int) (h0 : 0 ≤ R) (h1 : R < REG_N) :
    setReg s R v = some { s with REG := fun j => if j = R then v else s.REG j } := by
  simp [setReg, arrSet, h0, h1]

/-- C10: for every pair of signed instruction bytes `b0`, `b1` in `-128..127`, with
`u0 = b0 mod 256` and `u1 = b1 mod 256`: the opcode is `u0 / 16`, the fields `R` and `C` are
`u0 mod 16`, `S` (and `L`) is `u1 / 16`, `T` is `u1 mod 16`; all of them lie in `0..15`, so a
register access at any of them is within the 16 registers, and Compare stores valid indices
in `LHS` and `RHS`; `XY` is `b1` itself, a value in `-128..127`, as the register written by
Copy shows. -/
theorem decoder_fields (b0 b1 : Int) (_h0 : -128 ≤ b0 ∧ b0 ≤ 127)
    (h1 : -128 ≤ b1 ∧ b1 ≤ 127) :
    opc b0 = (b0 % 256) / 16 ∧ nib b0 = (b0 % 256) % 16 ∧
    opc b1 = (b1 % 256) / 16 ∧ nib b1 = (b1 % 256) % 16 ∧
    (0 ≤ opc b0 ∧ opc b0 ≤ 15) ∧ (0 ≤ nib b0 ∧ nib b0 ≤ 15) ∧
    (0 ≤ opc b1 ∧ opc b1 ≤ 15) ∧ (0 ≤ nib b1 ∧ nib b1 ≤ 15) ∧
    (∀ REG : Int → Int, arrGet REG_N REG (nib b0) = some (REG (nib b0)) ∧
      arrGet REG_N REG (opc b1) = some (REG (opc b1)) ∧
      arrGet REG_N REG (nib b1) = some (REG (nib b1))) ∧
    (∀ s : CPU, opc b0 = 12 → ∃ t, exec b0 b1 s = some t ∧ t.LHS = opc b1 ∧ t.RHS = nib b0 ∧
      (0 ≤ t.LHS ∧ t.LHS < REG_N) ∧ (0 ≤ t.RHS ∧ t.RHS < REG_N)) ∧
    (∀ s : CPU, opc b0 = 3 → ∃ t, exec b0 b1 s = some t ∧ t.REG (nib b0) = b1 ∧
      -128 ≤ t.REG (nib b0) ∧ t.REG (nib b0) ≤ 127) := by
  have r0 := opc_range b0
  have r1 := nib_range b0
  have r2 := opc_range b1
  have r3 := nib_range b1
  refine ⟨by unfold opc; omega, by unfold nib; omega, by unfold opc; omega,
    by unfold nib; omega, ⟨r0.1, by omega⟩, ⟨r1.1, by omega⟩, ⟨r2.1, by omega⟩,
    ⟨r3.1, by omega⟩, fun REG => ⟨getReg_nib _ _, getReg_opc _ _, getReg_nib _ _⟩, ?_, ?_⟩
  · intro s hop
    refine ⟨{ s with CIR0 := b0, CIR1 := b1, LHS := opc b1, RHS := nib b0 }, ?_, rfl, rfl,
      r2, r1⟩
    simp [exec, execute, hop, opCompare]
  · intro s hop
    refine ⟨{ s with CIR0 := b0, CIR1 := b1,
                     REG := fun j => if j = nib b0 then b1 else s.REG j }, ?_, by simp,
      by simpa using h1.1, by simpa using h1.2⟩
    simp [exec, execute, hop, opCopy, setReg_nib]

/-- C10, an instance with two negative bytes: `b0 = -41` (`0xD7`) decodes to opcode 13 and
low nibble 7, `b1 = -1` (`0xFF`) to the nibbles 15 and 15. -/
theorem decoder_fields_witness :
    opc (-41) = 13 ∧ nib (-41) = 7 ∧ opc (-1) = 15 ∧ nib (-1) = 15 := by
  obtain ⟨h1, h2, h3, h4, _⟩ := decoder_fields (-41) (-1) (by decide) (by decide)
  exact ⟨h1.trans (by decide), h2.trans (by decide), h3.trans (by decide),
    h4.trans (by decide)⟩

/-! ## Compare, then Branch on equality -/

theorem fetch_some (s u : CPU) (h : fetch s = some u) :
    u = fetched s ∧ 0 ≤ s.PC ∧ s.PC + 1 < RAM_N := by
  unfold fetch arrGet at h
  simp only [] at h
  split_ifs at h with a b
  · simp only [Option.some.injEq] at h
    exact ⟨h.symm, a.1, b.2⟩

theorem cycle_some (s t : CPU) (h : cycle s = some t) :
    execute (fetched s) = some t ∧ 0 ≤ s.PC ∧ s.PC + 1 < RAM_N := by
  unfold cycle at h
  cases hf : fetch s with
  | none => rw [hf] at h; exact absurd h (by simp)
  | some u =>
    rw [hf] at h
    obtain ⟨hu, hb⟩ := fetch_some s u hf
    subst hu
    exact ⟨h, hb⟩

theorem otherStep_keeps_LHS_RHS (s t : CPU) (h : otherStep s t) :
    t.LHS = s.LHS ∧ t.RHS = s.RHS := by
  obtain ⟨he, _⟩ := cycle_some s t h.2
  exact execute_keeps_LHS_RHS (fetched s) t he h.1

theorem otherSteps_keep_LHS_RHS (s t : CPU) (h : Relation.ReflTransGen otherStep s t) :
    t.LHS = s.LHS ∧ t.RHS = s.RHS := by
  induction h with
  | refl => exact ⟨rfl, rfl⟩
  | tail _ hstep ih =>
    obtain ⟨h1, h2⟩ := otherStep_keeps_LHS_RHS _ _ hstep
    exact ⟨h1.trans ih.1, h2.trans ih.2⟩

/-- C4: let a cycle execute a Compare that records `L` (high nibble of byte 1) and `R` (low
nibble of byte 0), let any number of cycles follow whose instructions are not Compare, and
let the state `s2` reached have a Branch with condition code `1` and target `XY` at `PC`.
Then the cycle of the Branch succeeds; it sets `PC` to `XY` when `REG[L] = REG[R]` in the
registers of `s2`, the state at the time of the Branch, and leaves `PC` at the address
following the Branch otherwise (so, unless `XY` is that very address, `PC = XY` exactly when
`REG[L] = REG[R]` in `s2`). -/
theorem compare_branch_equal (s0 s1 s2 : CPU) (hcmp : opc (s0.RAM s0.PC) = 12)
    (hc : cycle s0 = some s1) (hsteps : Relation.ReflTransGen otherStep s1 s2)
    (h0 : 0 ≤ s2.PC) (h1 : s2.PC + 1 < RAM_N) (hbr : opc (s2.RAM s2.PC) = 13)
    (hC : nib (s2.RAM s2.PC) = 1) :
    ∃ s3, cycle s2 = some s3 ∧
      (s2.REG (opc (s0.RAM (s0.PC + 1))) = s2.REG (nib (s0.RAM s0.PC)) →
        s3.PC = s2.RAM (s2.PC + 1)) ∧
      (s2.REG (opc (s0.RAM (s0.PC + 1))) ≠ s2.REG (nib (s0.RAM s0.PC)) →
        s3.PC = toByte (s2.PC + 2)) ∧
      (s2.RAM (s2.PC + 1) ≠ toByte (s2.PC + 2) →
        (s3.PC = s2.RAM (s2.PC + 1) ↔
          s2.REG (opc (s0.RAM (s0.PC + 1))) = s2.REG (nib (s0.RAM s0.PC)))) := by
  -- the Compare stores the two indices
  obtain ⟨he, _⟩ := cycle_some s0 s1 hc
  have ho : opc (fetched s0).CIR0 = 12 := hcmp
  simp only [execute, ho, opCompare] at he
  simp at he
  have hl1 : s1.LHS = opc (s0.RAM (s0.PC + 1)) := by rw [← he]; rfl
  have hr1 : s1.RHS = nib (s0.RAM s0.PC) := by rw [← he]; rfl
  -- the cycles in between keep them
  obtain ⟨hl2, hr2⟩ := otherSteps_keep_LHS_RHS s1 s2 hsteps
  rw [hl1] at hl2
  rw [hr1] at hr2
  have hL : 0 ≤ s2.LHS ∧ s2.LHS < REG_N := by rw [hl2]; exact opc_range _
  have hR : 0 ≤ s2.RHS ∧ s2.RHS < REG_N := by rw [hr2]; exact nib_range _
  -- the Branch reads the registers of `s2` at these indices
  obtain ⟨s3, h3, hyes, hno, _⟩ := cycle_branch s2 h0 h1 hbr (by omega) hL hR
  rw [hC, hl2, hr2] at hyes hno
  have hyes2 : s2.REG (opc (s0.RAM (s0.PC + 1))) = s2.REG (nib (s0.RAM s0.PC)) →
      s3.PC = s2.RAM (s2.PC + 1) := fun h => hyes (Or.inr (Or.inl ⟨rfl, h⟩))
  have hno2 : s2.REG (opc (s0.RAM (s0.PC + 1))) ≠ s2.REG (nib (s0.RAM s0.PC)) →
      s3.PC = toByte (s2.PC + 2) := by
    intro h
    apply hno
    intro hc2
    simp only [condHolds] at hc2
    norm_num at hc2
    exact h hc2
  refine ⟨s3, h3, hyes2, hno2, ?_⟩
  intro hne
  constructor
  · intro h
    by_contra hn2
    rw [hno2 hn2] at h
    exact hne h.symm
  · exact hyes2

/-- C4, an instance: in `compareDemo` the registers 1 and 2 are equal (both 0) when the
Compare executes, the Copy in between makes them differ (7 and 0), and the Branch-if-equal is
not taken: `PC` is 6, the address following the Branch, not the target 32. -/
theorem compare_branch_equal_witness :
    ∃ s1 s2 s3, cycle compareDemo = some s1 ∧ cycle s1 = some s2 ∧ cycle s2 = some s3 ∧
      s1.REG 1 = s1.REG 2 ∧ s2.REG 1 ≠ s2.REG 2 ∧ s3.PC = 6 := by
  -- first cycle: Compare
  have c1 := cycle_of_bounds compareDemo (by decide) (by decide)
  have o1 : opc (fetched compareDemo).CIR0 = 12 := by decide
  simp only [execute, o1, opCompare] at c1
  simp at c1
  obtain ⟨s1, c1, p1, m1, g1⟩ : ∃ s1, cycle compareDemo = some s1 ∧ s1.PC = 2 ∧
      s1.RAM = compareDemo.RAM ∧ s1.REG = compareDemo.REG :=
    ⟨_, c1, by decide, rfl, rfl⟩
  -- second cycle: Copy
  have c2 := cycle_of_bounds s1 (by rw [p1]; decide) (by rw [p1]; decide)
  have o2 : opc (fetched s1).CIR0 = 3 := by
    simp only [fetched, p1, m1]; decide
  rw [execute_copy _ o2] at c2
  obtain ⟨s2, c2, p2, m2, g2, g3⟩ : ∃ s2, cycle s1 = some s2 ∧ s2.PC = 4 ∧
      s2.RAM = compareDemo.RAM ∧ s2.REG 1 = 7 ∧ s2.REG 2 = 0 :=
    ⟨_, c2, by simp only [fetched, p1]; decide, by simp only [fetched, m1],
      by simp only [fetched, p1, m1, g1]; decide, by simp only [fetched, p1, m1, g1]; decide⟩
  have hstep : otherStep s1 s2 := ⟨by rw [p1, m1]; decide, c2⟩
  obtain ⟨s3, c3, _, hno, _⟩ :=
    compare_branch_equal compareDemo s1 s2 (by decide) c1 (Relation.ReflTransGen.single hstep)
      (by rw [p2]; decide) (by rw [p2]; decide) (by rw [p2, m2]; decide)
      (by rw [p2, m2]; decide)
  have l0 : opc (compareDemo.RAM (compareDemo.PC + 1)) = 1 := by decide
  have r0 : nib (compareDemo.RAM compareDemo.PC) = 2 := by decide
  rw [l0, r0, g2, g3, p2] at hno
  exact ⟨s1, s2, s3, c1, c2, c3, by rw [g1]; decide, by rw [g2, g3]; decide,
    (hno (by decide)).trans (by decide)⟩

/-! ## The comparison indices of reachable states -/

/-- Valid comparison indices stay valid through a cycle: only Compare writes them, and it
writes two nibbles. -/
theorem cycle_keeps_valid_indices (s t : CPU) (h : cycle s = some t)
    (hL : 0 ≤ s.LHS ∧ s.LHS < REG_N) (hR : 0 ≤ s.RHS ∧ s.RHS < REG_N) :
    (0 ≤ t.LHS ∧ t.LHS < REG_N) ∧ (0 ≤ t.RHS ∧ t.RHS < REG_N) := by
  obtain ⟨he, _⟩ := cycle_some s t h
  by_cases hop : opc (fetched s).CIR0 = 12
  · simp only [execute, hop, opCompare] at he
    simp at he
    rw [← he]
    exact ⟨opc_range _, nib_range _⟩
  · obtain ⟨h1, h2⟩ := execute_keeps_LHS_RHS _ _ he hop
    rw [h1, h2]
    exact ⟨hL, hR⟩

/-- Every state the run loop reaches from the initial state has valid comparison indices. -/
theorem run_keeps_valid_indices (n : Nat) (s t : CPU) (h : run n s = some t)
    (hL : 0 ≤ s.LHS ∧ s.LHS < REG_N) (hR : 0 ≤ s.RHS ∧ s.RHS < REG_N) :
    (0 ≤ t.LHS ∧ t.LHS < REG_N) ∧ (0 ≤ t.RHS ∧ t.RHS < REG_N) := by
  induction n generalizing s with
  | zero =>
    simp only [run, Option.some.injEq] at h
    rw [← h]; exact ⟨hL, hR⟩
  | succ k ih =>
    simp only [run] at h
    split_ifs at h
    · cases hc : cycle s with
      | none => rw [hc] at h; exact absurd h (by simp)
      | some u =>
        rw [hc] at h
        obtain ⟨hL2, hR2⟩ := cycle_keeps_valid_indices s u hc hL hR
        exact ih u h hL2 hR2
    · simp only [Option.some.injEq] at h
      rw [← h]; exact ⟨hL, hR⟩

/-! ## Shift -/

theorem shr_byte_range (v : Int) (n : Nat) (hv : -128 ≤ v ∧ v ≤ 127) :
    -128 ≤ v / 2 ^ n ∧ v / 2 ^ n ≤ 127 := by
  have hd : (0 : Int) < 2 ^ n := by positivity
  have hd1 : (1 : Int) ≤ 2 ^ n := hd
  constructor
  · apply Int.le_ediv_of_mul_le hd
    nlinarith
  · have h : v / 2 ^ n < 128 := by
      apply Int.ediv_lt_of_lt_mul hd
      nlinarith
    omega

theorem opShift_left (s : CPU) (h0 : 0 ≤ s.CIR1) (h1 : s.CIR1 < 32) :
    opShift s =
      some { s with
        REG := fun j =>
          if j = nib s.CIR0 then toByte (s.REG (nib s.CIR0) * 2 ^ s.CIR1.toNat)
          else s.REG j } := by
  have h2 : s.CIR1 ≥ 0 := h0
  simp [opShift, getReg_nib, h2, h1, setReg_nib]

theorem opShift_right (s : CPU) (h0 : s.CIR1 < 0) (h1 : -32 < s.CIR1) :
    opShift s =
      some { s with
        REG := fun j =>
          if j = nib s.CIR0 then toByte (s.REG (nib s.CIR0) / 2 ^ (-s.CIR1).toNat)
          else s.REG j } := by
  have h2 : ¬ s.CIR1 ≥ 0 := by omega
  have h3 : -s.CIR1 < 32 := by omega
  simp only [opShift, getReg_nib, h2, h3, setReg_nib, if_true, if_false]

theorem opShift_wide (s : CPU) (h : 32 ≤ s.CIR1 ∨ s.CIR1 ≤ -32) : opShift s = none := by
  simp only [opShift, getReg_nib]
  rcases h with h | h
  · have h2 : s.CIR1 ≥ 0 := by omega
    have h3 : ¬ s.CIR1 < 32 := by omega
    simp [h2, h3]
  · have h2 : ¬ s.CIR1 ≥ 0 := by omega
    have h3 : ¬ -s.CIR1 < 32 := by omega
    simp [h2, h3]

theorem exec_shift (c0 c1 : Int) (s : CPU) (h : opc c0 = 7) :
    exec c0 c1 s = opShift { s with CIR0 := c0, CIR1 := c1 } := by
  simp [exec, execute, h]

/-- C11, as the code has it: for every state, register index `R` in `0..15` with
`v = REG[R]` in `-128..127`, and every shift operand `XY` in `-31..31`, executing Shift(R, XY)
(bytes `0x70|R`, `XY`) succeeds; `REG[R]` becomes the value in `-128..127` congruent modulo
256 to `v * 2^XY` when `XY >= 0`, and `floor (v / 2^(-XY))` when `XY < 0`; the other
registers, the memory, `PC`, `SR` and the comparison indices are unchanged. -/
theorem shift_semantics (s : CPU) (R XY : Int) (hR : 0 ≤ R ∧ R ≤ 15)
    (hXY : -32 < XY ∧ XY < 32) (hv : -128 ≤ s.REG R ∧ s.REG R ≤ 127) :
    ∃ t, exec (0x70 + R) XY s = some t ∧
      (0 ≤ XY → t.REG R = toByte (s.REG R * 2 ^ XY.toNat) ∧
        (-128 ≤ t.REG R ∧ t.REG R ≤ 127) ∧ (t.REG R - s.REG R * 2 ^ XY.toNat) % 256 = 0) ∧
      (XY < 0 → t.REG R = s.REG R / 2 ^ (-XY).toNat) ∧
      (∀ j, j ≠ R → t.REG j = s.REG j) ∧
      t.RAM = s.RAM ∧ t.PC = s.PC ∧ t.SR = s.SR ∧ t.LHS = s.LHS ∧ t.RHS = s.RHS := by
  have o0 : opc (112 + R) = 7 := by unfold opc; omega
  have n0 : nib (112 + R) = R := by unfold nib; omega
  have he : exec (0x70 + R) XY s = opShift { s with CIR0 := 112 + R, CIR1 := XY } := by
    simp [exec, execute, o0]
  by_cases hs : 0 ≤ XY
  · have hl := opShift_left { s with CIR0 := 112 + R, CIR1 := XY } hs hXY.2
    simp only [n0] at hl
    rw [hl] at he
    refine ⟨_, he, ?_, fun h => absurd hs (by omega), ?_, rfl, rfl, rfl, rfl, rfl⟩
    · intro _
      simp only [if_true]
      refine ⟨trivial, toByte_range _, ?_⟩
      generalize s.REG R * 2 ^ XY.toNat = x
      unfold toByte
      omega
    · intro j hj
      simp [hj]
  · have hneg : XY < 0 := by omega
    have hr := opShift_right { s with CIR0 := 112 + R, CIR1 := XY } hneg hXY.1
    simp only [n0] at hr
    rw [hr] at he
    refine ⟨_, he, fun h => absurd h hs, ?_, ?_, rfl, rfl, rfl, rfl, rfl⟩
    · intro _
      simp only [if_true]
      have hb := shr_byte_range (s.REG R) (-XY).toNat hv
      exact toByte_of_range _ hb.1 hb.2
    · intro j hj
      simp [hj]

/-- C11, two instances on `REG[0] = -100`: the left shift by 1 wraps `-200` to `56`, the
right shift by 3 gives `floor (-100 / 8) = -13`. -/
theorem shift_semantics_witness :
    (∃ t, exec 0x70 1 { boot (fun _ => 0) [] with REG := fun _ => -100 } = some t ∧
      t.REG 0 = 56) ∧
    (∃ t, exec 0x70 (-3) { boot (fun _ => 0) [] with REG := fun _ => -100 } = some t ∧
      t.REG 0 = -13) := by
  constructor
  · obtain ⟨t, h1, h2, _⟩ :=
      shift_semantics { boot (fun _ => 0) [] with REG := fun _ => -100 } 0 1
        (by decide) (by decide) (by decide)
    exact ⟨t, h1, (h2 (by decide)).1.trans (by decide)⟩
  · obtain ⟨t, h1, _, h2, _⟩ :=
      shift_semantics { boot (fun _ => 0) [] with REG := fun _ => -100 } 0 (-3)
        (by decide) (by decide) (by decide)
    exact ⟨t, h1, (h2 (by decide)).trans (by decide)⟩

/-- C11 as stated fails: with `REG[0] = 1`, the Shift of register 0 by `XY = 32` (bytes
`70 20`) and by `XY = -128` (bytes `70 80`, a right shift by 128) are shifts of a 32-bit
`int` by at least its width, for which C defines no result: no state follows, in particular
none with `REG[0] = 1 * 2^32 mod 256 = 0`. -/
theorem shift_by_32_undefined :
    exec 0x70 32 { boot (fun _ => 0) [] with REG := fun _ => 1 } = none ∧
    exec 0x70 (-128) { boot (fun _ => 0) [] with REG := fun _ => 1 } = none ∧
    ¬ ∃ t, exec 0x70 32 { boot (fun _ => 0) [] with REG := fun _ => 1 } = some t ∧
      t.REG 0 = toByte (1 * 2 ^ 32) := by
  have h1 : exec 0x70 32 { boot (fun _ => 0) [] with REG := fun _ => 1 } = none := by
    rw [exec_shift _ _ _ (by decide)]
    apply opShift_wide
    left
    decide
  have h2 : exec 0x70 (-128) { boot (fun _ => 0) [] with REG := fun _ => 1 } = none := by
    rw [exec_shift _ _ _ (by decide)]
    apply opShift_wide
    right
    decide
  refine ⟨h1, h2, ?_⟩
  rintro ⟨t, ht, _⟩
  rw [h1] at ht
  exact absurd ht (by simp)

/-! ## Every opcode: definedness, status, program counter, memory -/

/-- The `switch` of `execute`: which case runs, with its opcode. -/
theorem execute_dispatch (s : CPU) :
    (opc s.CIR0 = 0 ∧ execute s = opHalt s) ∨ (opc s.CIR0 = 1 ∧ execute s = opRead s) ∨
    (opc s.CIR0 = 2 ∧ execute s = opWrite s) ∨ (opc s.CIR0 = 3 ∧ execute s = opCopy s) ∨
    (opc s.CIR0 = 4 ∧ execute s = opDuplicate s) ∨
    (opc s.CIR0 = 5 ∧ execute s = binop (fun a b => a + b) s) ∨
    (opc s.CIR0 = 6 ∧ execute s = binop (fun a b => a - b) s) ∨
    (opc s.CIR0 = 7 ∧ execute s = opShift s) ∨ (opc s.CIR0 = 8 ∧ execute s = opNot s) ∨
    (opc s.CIR0 = 9 ∧ execute s = binop Int.land s) ∨
    (opc s.CIR0 = 10 ∧ execute s = binop Int.lor s) ∨
    (opc s.CIR0 = 11 ∧ execute s = binop Int.xor s) ∨
    (opc s.CIR0 = 12 ∧ execute s = opCompare s) ∨ (opc s.CIR0 = 13 ∧ execute s = opBranch s) ∨
    (opc s.CIR0 = 14 ∧ execute s = opInput s) ∨ (opc s.CIR0 = 15 ∧ execute s = opOutput s) := by
  rcases opc_cases s.CIR0 with h | h | h | h | h | h | h | h | h | h | h | h | h | h | h | h
  all_goals simp [execute, h]

theorem opBranch_valid (s : CPU) (hC : nib s.CIR0 ≤ 6) (hL : 0 ≤ s.LHS ∧ s.LHS < REG_N)
    (hR : 0 ≤ s.RHS ∧ s.RHS < REG_N) :
    ∃ t, opBranch s = some t ∧ t.SR = s.SR ∧ t.RAM = s.RAM := by
  have hn := nib_range s.CIR0
  have hcases : nib s.CIR0 = 0 ∨ nib s.CIR0 = 1 ∨ nib s.CIR0 = 2 ∨ nib s.CIR0 = 3 ∨
      nib s.CIR0 = 4 ∨ nib s.CIR0 = 5 ∨ nib s.CIR0 = 6 := by omega
  rcases hcases with c | c | c | c | c | c | c
  · exact ⟨{ s with PC := s.CIR1 }, by simp [opBranch, c], rfl, rfl⟩
  all_goals
    simp [opBranch, c, jumpIf_eq _ _ hL hR]
    constructor <;> split_ifs <;> rfl

theorem opInput_defined (s : CPU) : ∃ t, opInput s = some t := by
  unfold opInput
  simp only []
  split
  · exact ⟨_, rfl⟩
  · exact ⟨_, rfl⟩
  · split_ifs
    · exact ⟨_, rfl⟩
    · exact ⟨_, setReg_nib _ _ _⟩

/-- The decode/execute step is defined on every instruction whose operand byte is at most
127, in a state with valid comparison indices, a Shift by 32 or more apart. -/
theorem execute_defined (s : CPU) (hXY : s.CIR1 ≤ 127) (hL : 0 ≤ s.LHS ∧ s.LHS < REG_N)
    (hR : 0 ≤ s.RHS ∧ s.RHS < REG_N)
    (hsh : opc s.CIR0 = 7 → -32 < s.CIR1 ∧ s.CIR1 < 32) :
    ∃ t, execute s = some t := by
  rcases execute_dispatch s with h | h | h | h | h | h | h | h | h | h | h | h | h | h | h | h
  all_goals rw [h.2]
  · exact ⟨_, rfl⟩
  · by_cases hx : s.CIR1 < 0
    · exact ⟨_, opRead_neg s hx⟩
    · exact ⟨_, opRead_ok s (by omega) (by unfold RAM_N; omega)⟩
  · by_cases hx : s.CIR1 < 0
    · exact ⟨_, opWrite_neg s hx⟩
    · exact ⟨_, opWrite_ok s (by omega) (by unfold RAM_N; omega)⟩
  · exact ⟨_, setReg_nib _ _ _⟩
  · exact ⟨_, by simp only [opDuplicate, getReg_opc]; exact setReg_nib _ _ _⟩
  · exact ⟨_, binop_eq _ _⟩
  · exact ⟨_, binop_eq _ _⟩
  · obtain ⟨a, b⟩ := hsh h.1
    by_cases hx : 0 ≤ s.CIR1
    · exact ⟨_, opShift_left s hx b⟩
    · exact ⟨_, opShift_right s (by omega) a⟩
  · exact ⟨_, by simp only [opNot, getReg_opc]; exact setReg_nib _ _ _⟩
  · exact ⟨_, binop_eq _ _⟩
  · exact ⟨_, binop_eq _ _⟩
  · exact ⟨_, binop_eq _ _⟩
  · exact ⟨_, rfl⟩
  · by_cases hc : nib s.CIR0 ≤ 6
    · obtain ⟨t, ht, _⟩ := opBranch_valid s hc hL hR
      exact ⟨t, ht⟩
    · exact ⟨_, opBranch_invalid s (by omega)⟩
  · exact opInput_defined s
  · exact ⟨{ s with stdout := s.stdout ++ [Out.value (s.REG (nib s.CIR0))] },
      by simp only [opOutput, getReg_nib]⟩

theorem opRead_keeps_SR (s t : CPU) (h : opRead s = some t) (hx : ¬ s.CIR1 < 0) :
    t.SR = s.SR := by
  simp only [opRead, hx, if_false] at h
  split at h
  · exact absurd h (by simp)
  · rw [setReg_some _ _ _ _ h]

theorem opWrite_keeps_SR (s t : CPU) (h : opWrite s = some t) (hx : ¬ s.CIR1 < 0) :
    t.SR = s.SR := by
  simp only [opWrite, hx, if_false] at h
  split at h
  · exact absurd h (by simp)
  · split at h
    · exact absurd h (by simp)
    · simp only [Option.some.injEq] at h
      rw [← h]

theorem opBranch_keeps_SR (s t : CPU) (h : opBranch s = some t) (hC : nib s.CIR0 ≤ 6) :
    t.SR = s.SR := by
  have hn := nib_range s.CIR0
  have hcases : nib s.CIR0 = 0 ∨ nib s.CIR0 = 1 ∨ nib s.CIR0 = 2 ∨ nib s.CIR0 = 3 ∨
      nib s.CIR0 = 4 ∨ nib s.CIR0 = 5 ∨ nib s.CIR0 = 6 := by omega
  rcases hcases with c | c | c | c | c | c | c
  all_goals simp [opBranch, c] at h
  · rw [← h]
  all_goals rw [jumpIf_some _ _ _ h]

/-- The status register after the decode/execute step, opcode by opcode. -/
theorem execute_SR (s t : CPU) (h : execute s = some t) :
    (opc s.CIR0 = 0 → t.SR = 0) ∧
    ((opc s.CIR0 = 1 ∨ opc s.CIR0 = 2) → s.CIR1 < 0 → t.SR = -1) ∧
    (opc s.CIR0 = 13 → 7 ≤ nib s.CIR0 → t.SR = -1) ∧
    (opc s.CIR0 ≠ 0 → ¬ ((opc s.CIR0 = 1 ∨ opc s.CIR0 = 2) ∧ s.CIR1 < 0) →
      ¬ (opc s.CIR0 = 13 ∧ 7 ≤ nib s.CIR0) → t.SR = s.SR) := by
  rcases execute_dispatch s with ⟨ho, he⟩ | ⟨ho, he⟩ | ⟨ho, he⟩ | ⟨ho, he⟩ | ⟨ho, he⟩ |
    ⟨ho, he⟩ | ⟨ho, he⟩ | ⟨ho, he⟩ | ⟨ho, he⟩ | ⟨ho, he⟩ | ⟨ho, he⟩ | ⟨ho, he⟩ | ⟨ho, he⟩ |
    ⟨ho, he⟩ | ⟨ho, he⟩ | ⟨ho, he⟩
  all_goals rw [he] at h
  -- Halt
  · simp only [opHalt, Option.some.injEq] at h
    refine ⟨fun _ => by rw [← h]; rfl, fun h1 => by omega, fun h1 => by omega,
      fun h1 => absurd ho h1⟩
  -- Read
  · refine ⟨fun h1 => by omega, fun _ hx => ?_, fun h1 => by omega, fun _ h2 _ => ?_⟩
    · rw [opRead_neg s hx] at h
      simp only [Option.some.injEq] at h
      rw [← h]; rfl
    · exact opRead_keeps_SR s t h (fun hx => h2 ⟨Or.inl ho, hx⟩)
  -- Write
  · refine ⟨fun h1 => by omega, fun _ hx => ?_, fun h1 => by omega, fun _ h2 _ => ?_⟩
    · rw [opWrite_neg s hx] at h
      simp only [Option.some.injEq] at h
      rw [← h]; rfl
    · exact opWrite_keeps_SR s t h (fun hx => h2 ⟨Or.inr ho, hx⟩)
  -- Branch is the fourteenth case; the other cases keep `SR`
  all_goals first
    | (refine ⟨fun h1 => by omega, fun h1 => by omega, fun _ hC => ?_, fun _ _ h3 => ?_⟩
       · rw [opBranch_invalid s hC] at h
         simp only [Option.some.injEq] at h
         rw [← h]; rfl
       · exact opBranch_keeps_SR s t h (by have := h3; by_contra hc; exact h3 ⟨ho, by omega⟩))
    | (refine ⟨fun h1 => by omega, fun h1 => by omega, fun h1 => by omega, fun _ _ _ => ?_⟩
       first
         | (simp only [opCompare, Option.some.injEq] at h; rw [← h])
         | rw [setReg_some _ _ _ _ h]
         | rw [opDuplicate_some _ _ h]
         | rw [binop_some _ _ _ h]
         | rw [opShift_some _ _ h]
         | rw [opNot_some _ _ h]
         | rw [opInput_some _ _ h]
         | rw [opOutput_some _ _ h])

/-- Only Branch writes the program counter in the decode/execute step. -/
theorem execute_keeps_PC (s t : CPU) (h : execute s = some t) (hop : opc s.CIR0 ≠ 13) :
    t.PC = s.PC := by
  rcases execute_dispatch s with ⟨ho, he⟩ | ⟨ho, he⟩ | ⟨ho, he⟩ | ⟨ho, he⟩ | ⟨ho, he⟩ |
    ⟨ho, he⟩ | ⟨ho, he⟩ | ⟨ho, he⟩ | ⟨ho, he⟩ | ⟨ho, he⟩ | ⟨ho, he⟩ | ⟨ho, he⟩ | ⟨ho, he⟩ |
    ⟨ho, he⟩ | ⟨ho, he⟩ | ⟨ho, he⟩
  all_goals rw [he] at h
  all_goals first
    | exact absurd ho hop
    | (simp only [opHalt, opCompare, Option.some.injEq] at h; rw [← h])
    | rw [opRead_some _ _ h]
    | rw [opWrite_some _ _ h]
    | rw [setReg_some _ _ _ _ h]
    | rw [opDuplicate_some _ _ h]
    | rw [binop_some _ _ _ h]
    | rw [opShift_some _ _ h]
    | rw [opNot_some _ _ h]
    | rw [opInput_some _ _ h]
    | rw [opOutput_some _ _ h]

/-- Only Write writes the memory in the decode/execute step. -/
theorem execute_keeps_RAM (s t : CPU) (h : execute s = some t) (hop : opc s.CIR0 ≠ 2) :
    t.RAM = s.RAM := by
  rcases execute_dispatch s with ⟨ho, he⟩ | ⟨ho, he⟩ | ⟨ho, he⟩ | ⟨ho, he⟩ | ⟨ho, he⟩ |
    ⟨ho, he⟩ | ⟨ho, he⟩ | ⟨ho, he⟩ | ⟨ho, he⟩ | ⟨ho, he⟩ | ⟨ho, he⟩ | ⟨ho, he⟩ | ⟨ho, he⟩ |
    ⟨ho, he⟩ | ⟨ho, he⟩ | ⟨ho, he⟩
  all_goals rw [he] at h
  all_goals first
    | exact absurd ho hop
    | (simp only [opHalt, opCompare, Option.some.injEq] at h; rw [← h])
    | rw [opRead_some _ _ h]
    | rw [setReg_some _ _ _ _ h]
    | rw [opDuplicate_some _ _ h]
    | rw [binop_some _ _ _ h]
    | rw [opShift_some _ _ h]
    | rw [opNot_some _ _ h]
    | rw [opBranch_some _ _ h]
    | rw [opInput_some _ _ h]
    | rw [opOutput_some _ _ h]

/-- A cycle is defined in every state of `cycleOk`. -/
theorem cycle_defined (s : CPU) (hok : cycleOk s) :
    ∃ t, cycle s = some t ∧ execute (fetched s) = some t := by
  obtain ⟨⟨h0, h1⟩, ⟨_, hx⟩, hL, hR, hsh⟩ := hok
  obtain ⟨t, ht⟩ := execute_defined (fetched s) hx hL hR hsh
  exact ⟨t, by rw [cycle_of_bounds s h0 h1]; exact ht, ht⟩

/-- A Shift by 32 or more, to the left or to the right, leaves the cycle without a defined
result. -/
theorem cycle_shift_wide (s : CPU) (h0 : 0 ≤ s.PC) (h1 : s.PC + 1 < RAM_N)
    (hop : opc (s.RAM s.PC) = 7) (hw : 32 ≤ s.RAM (s.PC + 1) ∨ s.RAM (s.PC + 1) ≤ -32) :
    cycle s = none := by
  rw [cycle_of_bounds s h0 h1]
  have ho : opc (fetched s).CIR0 = 7 := hop
  have he : execute (fetched s) = opShift (fetched s) := by simp [execute, ho]
  rw [he]
  exact opShift_wide (fetched s) hw

/-- C12, as the code has it: in a state with `SR = 1` and every fetched instruction other
than a Shift whose operand is outside `-31..31` (the states of `cycleOk`, in which the coming
cycle is defined), the cycle ends with `SR = 0` exactly when the opcode is `0x0`, with
`SR < 0` exactly when the instruction is a Read or Write with `XY < 0` or a Branch with
condition code in `0x7..0xF`, and with `SR = 1` in every other case; `SR` takes no other
value.  With `SR = 1` the loop goes on to the next cycle, with `SR ≤ 0` it stops in that
state. -/
theorem halt_causes (s : CPU) (hSR : s.SR = 1) (hok : cycleOk s) :
    ∃ t, cycle s = some t ∧
      (t.SR = 0 ↔ opc (s.RAM s.PC) = 0) ∧
      (t.SR < 0 ↔
        ((opc (s.RAM s.PC) = 1 ∨ opc (s.RAM s.PC) = 2) ∧ s.RAM (s.PC + 1) < 0) ∨
        (opc (s.RAM s.PC) = 13 ∧ 7 ≤ nib (s.RAM s.PC))) ∧
      (t.SR = 0 ∨ t.SR = -1 ∨ t.SR = 1) ∧
      (t.SR = 1 → ∀ n, run (n + 1) s = run n t) ∧
      (t.SR ≤ 0 → ∀ n, run (n + 1) s = some t) := by
  obtain ⟨t, hc, he⟩ := cycle_defined s hok
  obtain ⟨a1, a2, a3, a4⟩ := execute_SR (fetched s) t he
  have e0 : (fetched s).CIR0 = s.RAM s.PC := rfl
  have e1 : (fetched s).CIR1 = s.RAM (s.PC + 1) := rfl
  have e2 : (fetched s).SR = s.SR := rfl
  rw [e0] at a1 a2 a3 a4
  rw [e1] at a2 a4
  rw [e2, hSR] at a4
  have hrun : s.SR > 0 := by omega
  have hval : t.SR = 0 ∨ t.SR = -1 ∨ t.SR = 1 := by
    by_cases c1 : opc (s.RAM s.PC) = 0
    · exact Or.inl (a1 c1)
    · by_cases c2 : (opc (s.RAM s.PC) = 1 ∨ opc (s.RAM s.PC) = 2) ∧ s.RAM (s.PC + 1) < 0
      · exact Or.inr (Or.inl (a2 c2.1 c2.2))
      · by_cases c3 : opc (s.RAM s.PC) = 13 ∧ 7 ≤ nib (s.RAM s.PC)
        · exact Or.inr (Or.inl (a3 c3.1 c3.2))
        · exact Or.inr (Or.inr (a4 c1 c2 c3))
  refine ⟨t, hc, ?_, ?_, hval, ?_, ?_⟩
  · constructor
    · intro h
      by_contra c1
      by_cases c2 : (opc (s.RAM s.PC) = 1 ∨ opc (s.RAM s.PC) = 2) ∧ s.RAM (s.PC + 1) < 0
      · have := a2 c2.1 c2.2; omega
      · by_cases c3 : opc (s.RAM s.PC) = 13 ∧ 7 ≤ nib (s.RAM s.PC)
        · have := a3 c3.1 c3.2; omega
        · have := a4 c1 c2 c3; omega
    · exact a1
  · constructor
    · intro h
      by_contra c
      push_neg at c
      by_cases c1 : opc (s.RAM s.PC) = 0
      · have := a1 c1; omega
      · have := a4 c1 (fun h2 => absurd h2.2 (not_lt.mpr (c.1 h2.1)))
          (fun h3 => absurd h3.2 (not_le.mpr (c.2 h3.1)))
        omega
    · rintro (⟨h1, h2⟩ | ⟨h1, h2⟩)
      · have := a2 h1 h2; omega
      · have := a3 h1 h2; omega
  · intro h n
    exact run_succ_of_cycle n s t hrun hc
  · intro h n
    exact run_succ_of_cycle_halts n s t hrun hc h

/-- C12, an instance: at boot on the image `30 05` (Copy), the cycle ends with `SR = 1` and
the loop goes on. -/
theorem halt_causes_witness :
    ∃ t, cycle (boot (load [0x30, 0x05] (fun _ => 0)) []) = some t ∧ t.SR = 1 ∧
      ∀ n, run (n + 1) (boot (load [0x30, 0x05] (fun _ => 0)) []) = run n t := by
  obtain ⟨t, h1, h2, h3, h4, h5, _⟩ :=
    halt_causes (boot (load [0x30, 0x05] (fun _ => 0)) []) (by decide)
      ⟨by decide, by decide, by decide, by decide, by decide⟩
  have e0 : opc ((boot (load [0x30, 0x05] (fun _ => 0)) []).RAM
      (boot (load [0x30, 0x05] (fun _ => 0)) []).PC) = 3 := by decide
  rw [e0] at h2 h3
  have hs : t.SR = 1 := by
    rcases h4 with h | h | h
    · exact absurd (h2.mp h) (by decide)
    · have := h3.mp (by omega)
      omega
    · exact h
  exact ⟨t, h1, hs, h5 hs⟩

/-- C12 as stated fails: at boot on the image `70 20`, a Shift of register 0 by 32, the state
is running with `SR = 1` and the instruction is neither Halt nor a failing Read, Write or
Branch, but the shift of a 32-bit `int` by its width has no defined result: no state follows
the cycle, in particular none with `SR = 1`, and the run has no result. -/
theorem halt_causes_shift_undefined :
    (boot (load [0x70, 0x20] (fun _ => 0)) []).SR = 1 ∧
    opc ((boot (load [0x70, 0x20] (fun _ => 0)) []).RAM 0) = 7 ∧
    (boot (load [0x70, 0x20] (fun _ => 0)) []).RAM 1 = 32 ∧
    cycle (boot (load [0x70, 0x20] (fun _ => 0)) []) = none ∧
    run 1 (boot (load [0x70, 0x20] (fun _ => 0)) []) = none ∧
    ¬ ∃ t, cycle (boot (load [0x70, 0x20] (fun _ => 0)) []) = some t ∧ t.SR = 1 := by
  have hc : cycle (boot (load [0x70, 0x20] (fun _ => 0)) []) = none :=
    cycle_shift_wide _ (by decide) (by decide) (by decide) (Or.inl (by decide))
  refine ⟨by decide, by decide, by decide, hc,
    run_succ_of_cycle_none 0 _ (by decide) hc, ?_⟩
  rintro ⟨t, ht, _⟩
  rw [hc] at ht
  exact absurd ht (by simp)

/-- C13, as the code has it: in a state with program counter `p` and every fetched
instruction other than a Shift whose operand is outside `-31..31` (the states of `cycleOk`,
in which the coming cycle is defined), the cycle ends with `PC = XY` when the instruction is
a Branch whose condition (code `0..6`) holds, and with `PC` equal to `p + 2` reduced into the
signed 8-bit range for every other instruction, failing Read and Write and a Branch with an
invalid condition code included. -/
theorem pc_advance (s : CPU) (hok : cycleOk s) :
    ∃ t, cycle s = some t ∧
      (opc (s.RAM s.PC) = 13 ∧
          condHolds (nib (s.RAM s.PC)) (s.REG s.LHS) (s.REG s.RHS) →
        t.PC = s.RAM (s.PC + 1)) ∧
      (¬ (opc (s.RAM s.PC) = 13 ∧
          condHolds (nib (s.RAM s.PC)) (s.REG s.LHS) (s.REG s.RHS)) →
        t.PC = toByte (s.PC + 2) ∧ -128 ≤ t.PC ∧ t.PC ≤ 127) := by
  have hb := toByte_range (s.PC + 2)
  by_cases hop : opc (s.RAM s.PC) = 13
  · by_cases hC : nib (s.RAM s.PC) ≤ 6
    · obtain ⟨⟨h0, h1⟩, _, hL, hR, _⟩ := hok
      obtain ⟨t, ht, hyes, hno, _⟩ := cycle_branch s h0 h1 hop hC hL hR
      refine ⟨t, ht, fun h => hyes h.2, fun h => ?_⟩
      have h2 := hno (fun hc => h ⟨hop, hc⟩)
      rw [h2]
      exact ⟨rfl, hb⟩
    · obtain ⟨⟨h0, h1⟩, _⟩ := hok
      have hc := cycle_branch_invalid s h0 h1 hop (by omega)
      refine ⟨_, hc, fun h => ?_, fun _ => ⟨rfl, hb⟩⟩
      exfalso
      have h2 := h.2
      simp only [condHolds] at h2
      omega
  · obtain ⟨t, hc, he⟩ := cycle_defined s hok
    have hpc := execute_keeps_PC (fetched s) t he hop
    refine ⟨t, hc, fun h => absurd h.1 hop, fun _ => ?_⟩
    rw [hpc]
    exact ⟨rfl, hb⟩

/-- C13, an instance: a Copy at `PC = 126`, the last instruction slot, leaves
`PC = -128`. -/
theorem pc_advance_witness :
    ∃ t, cycle { boot (fun i => if i = 126 then 0x30 else 0) [] with PC := 126 } = some t ∧
      t.PC = -128 := by
  obtain ⟨t, h1, _, h2⟩ :=
    pc_advance { boot (fun i => if i = 126 then 0x30 else 0) [] with PC := 126 }
      ⟨by decide, by decide, by decide, by decide, by decide⟩
  exact ⟨t, h1, (h2 (fun h => absurd h.1 (by decide))).1.trans (by decide)⟩

/-- C13 as stated fails: at boot on the image `70 80`, a Shift of register 0 with operand
`-128` (a right shift by 128), the instruction is not a Branch, but the shift of a 32-bit
`int` by more than its width has no defined result: no state follows the cycle, in
particular none with `PC = 2`. -/
theorem pc_advance_shift_undefined :
    (boot (load [0x70, 0x80] (fun _ => 0)) []).SR > 0 ∧
    (boot (load [0x70, 0x80] (fun _ => 0)) []).PC = 0 ∧
    opc ((boot (load [0x70, 0x80] (fun _ => 0)) []).RAM 0) = 7 ∧
    (boot (load [0x70, 0x80] (fun _ => 0)) []).RAM 1 = -128 ∧
    cycle (boot (load [0x70, 0x80] (fun _ => 0)) []) = none ∧
    ¬ ∃ t, cycle (boot (load [0x70, 0x80] (fun _ => 0)) []) = some t ∧
      t.PC = toByte ((boot (load [0x70, 0x80] (fun _ => 0)) []).PC + 2) := by
  have hc : cycle (boot (load [0x70, 0x80] (fun _ => 0)) []) = none :=
    cycle_shift_wide _ (by decide) (by decide) (by decide) (Or.inr (by decide))
  refine ⟨by decide, by decide, by decide, by decide, hc, ?_⟩
  rintro ⟨t, ht, _⟩
  rw [hc] at ht
  exact absurd ht (by simp)

/-- C14, as the code has it: in a state and for every fetched instruction other than a Shift
whose operand is outside `-31..31` (the states of `cycleOk`, in which the coming cycle is
defined), an instruction whose opcode is not `0x2` (Write) leaves the whole memory as it was;
a Write(R, a) with `a >= 0` stores `REG[R]` in cell `a` and leaves every other cell and every
register as it was (and a Write with `a < 0` leaves the memory as it was). -/
theorem memory_frame (s : CPU) (hok : cycleOk s) :
    ∃ t, cycle s = some t ∧
      (opc (s.RAM s.PC) ≠ 2 → t.RAM = s.RAM) ∧
      (opc (s.RAM s.PC) = 2 → 0 ≤ s.RAM (s.PC + 1) →
        t.RAM (s.RAM (s.PC + 1)) = s.REG (nib (s.RAM s.PC)) ∧
        (∀ j, j ≠ s.RAM (s.PC + 1) → t.RAM j = s.RAM j) ∧ t.REG = s.REG) ∧
      (opc (s.RAM s.PC) = 2 → s.RAM (s.PC + 1) < 0 → t.RAM = s.RAM ∧ t.REG = s.REG) := by
  obtain ⟨t, hc, he⟩ := cycle_defined s hok
  obtain ⟨_, ⟨_, hx⟩, _⟩ := hok
  refine ⟨t, hc, fun hop => execute_keeps_RAM (fetched s) t he hop, ?_, ?_⟩
  · intro hop ha
    have ho : opc (fetched s).CIR0 = 2 := hop
    have hw := opWrite_ok (fetched s) ha (by unfold RAM_N; exact Int.lt_of_le_of_lt hx (by decide))
    have he2 : execute (fetched s) = opWrite (fetched s) := by simp [execute, ho]
    rw [he2, hw] at he
    simp only [Option.some.injEq] at he
    rw [← he]
    refine ⟨by simp [fetched], ?_, rfl⟩
    intro j hj
    simp [fetched, hj]
  · intro hop ha
    have ho : opc (fetched s).CIR0 = 2 := hop
    have hw := opWrite_neg (fetched s) ha
    have he2 : execute (fetched s) = opWrite (fetched s) := by simp [execute, ho]
    rw [he2, hw] at he
    simp only [Option.some.injEq] at he
    rw [← he]
    exact ⟨rfl, rfl⟩

/-- C14, an instance: with `REG[3] = 42`, the Write `23 7F` at boot stores 42 in cell 127
and leaves cell 0 (the instruction byte `0x23`) as it was. -/
theorem memory_frame_witness :
    ∃ t, cycle { boot (load [0x23, 0x7F] (fun _ => 0)) [] with REG := fun _ => 42 }
        = some t ∧
      t.RAM 127 = 42 ∧ t.RAM 0 = 0x23 := by
  obtain ⟨t, h1, _, h2, _⟩ :=
    memory_frame { boot (load [0x23, 0x7F] (fun _ => 0)) [] with REG := fun _ => 42 }
      ⟨by decide, by decide, by decide, by decide, by decide⟩
  obtain ⟨h3, h4, _⟩ := h2 (by decide) (by decide)
  exact ⟨t, h1, h3, (h4 0 (by decide)).trans (by decide)⟩

/-- C14 as stated fails: at boot on the image `71 7F`, a Shift of register 1 by 127, the
opcode is not `0x2`, but the shift of a 32-bit `int` by more than its width has no defined
result: no state follows the cycle, in particular none whose memory equals the memory
before. -/
theorem memory_frame_shift_undefined :
    (boot (load [0x71, 0x7F] (fun _ => 0)) []).SR > 0 ∧
    opc ((boot (load [0x71, 0x7F] (fun _ => 0)) []).RAM 0) = 7 ∧
    opc ((boot (load [0x71, 0x7F] (fun _ => 0)) []).RAM 0) ≠ 2 ∧
    (boot (load [0x71, 0x7F] (fun _ => 0)) []).RAM 1 = 127 ∧
    cycle (boot (load [0x71, 0x7F] (fun _ => 0)) []) = none ∧
    ¬ ∃ t, cycle (boot (load [0x71, 0x7F] (fun _ => 0)) []) = some t ∧
      t.RAM = (boot (load [0x71, 0x7F] (fun _ => 0)) []).RAM := by
  have hc : cycle (boot (load [0x71, 0x7F] (fun _ => 0)) []) = none :=
    cycle_shift_wide _ (by decide) (by decide) (by decide) (Or.inl (by decide))
  refine ⟨by decide, by decide, by decide, by decide, hc, ?_⟩
  rintro ⟨t, ht, _⟩
  rw [hc] at ht
  exact absurd ht (by simp)

/-! ## Negative and past-the-end addresses -/

/-- C15 fails on the code: Branch has no test of its target.  The image `D0 FF`, an
unconditional Branch to `-1`, ends its cycle with `SR = 1` and `PC = -1`, and the next cycle
fetches `RAM[-1]`, outside the array, so no state follows; the image `10 FF`, a Read from
`-1`, is rejected with `SR = -1`. -/
theorem branch_negative_target_taken :
    (cycle (boot (load [0xD0, 0xFF] (fun _ => 0)) [])).map (fun t => (t.SR, t.PC))
      = some (1, -1) ∧
    (run 2 (boot (load [0xD0, 0xFF] (fun _ => 0)) [])).isNone = true ∧
    (cycle (boot (load [0x10, 0xFF] (fun _ => 0)) [])).map (fun t => (t.SR, t.PC))
      = some (-1, 2) := by
  refine ⟨by decide, by decide, by decide⟩

/-- C16: on every memory image that starts with `D0 7F` (unconditional Branch to 127) the
first cycle from the initial state reaches a state with `PC = 127` and `SR > 0`; there
`RAM[PC]` is a cell of the memory but `RAM[PC + 1]` is `RAM[128]`, outside the addresses
`0..127`: the fetch, the cycle and every longer run have no defined result. -/
theorem fetch_past_end (RAM : Int → Int) (inp : List Tok) (m0 : RAM 0 = toByte 0xD0)
    (m1 : RAM 1 = 0x7F) :
    ∃ t, cycle (boot RAM inp) = some t ∧ run 1 (boot RAM inp) = some t ∧
      t.PC = 127 ∧ t.SR > 0 ∧
      arrGet RAM_N t.RAM t.PC = some (RAM 127) ∧
      t.PC + 1 = 128 ∧ ¬ (t.PC + 1 < RAM_N) ∧ arrGet RAM_N t.RAM (t.PC + 1) = none ∧
      fetch t = none ∧ cycle t = none ∧ ∀ n, run (n + 2) (boot RAM inp) = none := by
  have e0 : RAM 0 = -48 := by rw [m0]; decide
  have hc := cycle_of_bounds (boot RAM inp) (by simp [boot]) (by simp [boot, RAM_N])
  have ho : opc (fetched (boot RAM inp)).CIR0 = 13 := by
    simp only [fetched, boot, e0]; decide
  have hn : nib (fetched (boot RAM inp)).CIR0 = 0 := by
    simp only [fetched, boot, e0]; decide
  have he : execute (fetched (boot RAM inp)) =
      some { fetched (boot RAM inp) with PC := (fetched (boot RAM inp)).CIR1 } := by
    simp [execute, ho, opBranch, hn]
  rw [he] at hc
  obtain ⟨t, hc, p, q, r⟩ : ∃ t, cycle (boot RAM inp) = some t ∧ t.PC = 127 ∧ t.SR = 1 ∧
      t.RAM = RAM :=
    ⟨_, hc, by simp [fetched, boot, m1], by simp [fetched, boot], by simp [fetched, boot]⟩
  have hb : (boot RAM inp).SR > 0 := by simp [boot]
  have hg : arrGet RAM_N t.RAM (t.PC + 1) = none := by
    rw [p]; simp [arrGet, RAM_N]
  have hf : fetch t = none := by
    have hg0 : arrGet RAM_N t.RAM t.PC = some (t.RAM t.PC) :=
      arrGet_of_bounds _ _ _ (by rw [p]; decide) (by rw [p]; decide)
    simp [fetch, hg0, hg]
  have hcy : cycle t = none := by simp [cycle, hf]
  refine ⟨t, hc, ?_, p, by omega, ?_, by omega, by rw [p]; decide, hg, hf, hcy, ?_⟩
  · rw [run_succ_of_cycle 0 _ _ hb hc]; rfl
  · rw [r, p]; exact arrGet_of_bounds _ _ _ (by decide) (by decide)
  · intro n
    rw [run_succ_of_cycle _ _ _ hb hc]
    exact run_succ_of_cycle_none n t (by omega) hcy

/-- C16, the instance of the claim: the image `D0 7F`. -/
theorem fetch_past_end_witness :
    ∃ t, cycle (boot (load [0xD0, 0x7F] (fun _ => 0)) []) = some t ∧ t.PC = 127 ∧
      t.SR > 0 ∧ arrGet RAM_N t.RAM (t.PC + 1) = none ∧ cycle t = none := by
  obtain ⟨t, h1, _, h2, h3, _, _, _, h4, _, h5, _⟩ :=
    fetch_past_end (load [0xD0, 0x7F] (fun _ => 0)) [] (by decide) (by decide)
  exact ⟨t, h1, h2, h3, h4, h5⟩

/-- A Read or Write with a negative address: the cycle is the fetch, then `SR = -1`. -/
theorem cycle_negative_address (s : CPU) (h0 : 0 ≤ s.PC) (h1 : s.PC + 1 < RAM_N)
    (hop : opc (s.RAM s.PC) = 1 ∨ opc (s.RAM s.PC) = 2) (hneg : s.RAM (s.PC + 1) < 0) :
    cycle s = some { fetched s with SR := SR_FAILURE } := by
  rw [cycle_of_bounds s h0 h1]
  have hx : (fetched s).CIR1 < 0 := hneg
  rcases hop with hop | hop
  · have ho : opc (fetched s).CIR0 = 1 := hop
    simp [execute, ho, opRead_neg _ hx]
  · have ho : opc (fetched s).CIR0 = 2 := hop
    simp [execute, ho, opWrite_neg _ hx]

/-- C17: in a state whose instruction at `PC` is a Read or Write with `XY < 0`, or a Branch
with condition code in `0x7..0xF`, the cycle leaves the registers, the memory, the
comparison indices and the two standard streams exactly as they were; `SR` is `-1` and `PC`
is the value the fetch gave it.  The state is the fetched state with `SR = -1`: the fetch
latches `MAR`, `MBR`, `CIR` hold the instruction, as after every fetch. -/
theorem failure_atomic (s : CPU) (h0 : 0 ≤ s.PC) (h1 : s.PC + 1 < RAM_N)
    (hfail : ((opc (s.RAM s.PC) = 1 ∨ opc (s.RAM s.PC) = 2) ∧ s.RAM (s.PC + 1) < 0) ∨
      (opc (s.RAM s.PC) = 13 ∧ 7 ≤ nib (s.RAM s.PC))) :
    ∃ t, cycle s = some t ∧ t.REG = s.REG ∧ t.RAM = s.RAM ∧ t.LHS = s.LHS ∧ t.RHS = s.RHS ∧
      t.stdin = s.stdin ∧ t.stdout = s.stdout ∧ t.SR = -1 ∧ t.PC = toByte (s.PC + 2) ∧
      t = { fetched s with SR := SR_FAILURE } := by
  have hc : cycle s = some { fetched s with SR := SR_FAILURE } := by
    rcases hfail with ⟨hop, hneg⟩ | ⟨hop, hC⟩
    · exact cycle_negative_address s h0 h1 hop hneg
    · exact cycle_branch_invalid s h0 h1 hop hC
  exact ⟨_, hc, rfl, rfl, rfl, rfl, rfl, rfl, rfl, rfl, rfl⟩

/-- C17, an instance: the failing Write `23 FF` with every register at 42 leaves the
registers at 42 and the instruction bytes in memory. -/
theorem failure_atomic_witness :
    ∃ t, cycle { boot (load [0x23, 0xFF] (fun _ => 0)) [] with REG := fun _ => 42 }
        = some t ∧
      t.REG 3 = 42 ∧ t.RAM 0 = 0x23 ∧ t.RAM 1 = -1 ∧ t.SR = -1 ∧ t.PC = 2 := by
  obtain ⟨t, h1, h2, h3, _, _, _, _, h4, h5, _⟩ :=
    failure_atomic { boot (load [0x23, 0xFF] (fun _ => 0)) [] with REG := fun _ => 42 }
      (by decide) (by decide) (Or.inl ⟨Or.inr (by decide), by decide⟩)
  exact ⟨t, h1, by rw [h2], by rw [h3]; decide, by rw [h3]; decide, h4,
    h5.trans (by decide)⟩

/-- C18: for every state and every Read or Write instruction whose operand byte `XY` is a
signed byte (`-128..127`), the instruction is defined: either `XY < 0`, and it sets
`SR = -1` without touching memory or registers, or `0 <= XY <= 127`, and the cell it accesses
is one of the `RAM_N = 128` cells (Read loads it into `REG[R]`, Write stores `REG[R]` in it).
No address `>= 128` fits the operand byte. -/
theorem read_write_in_bounds (s : CPU) (c0 c1 : Int) (hop : opc c0 = 1 ∨ opc c0 = 2)
    (hb : -128 ≤ c1 ∧ c1 ≤ 127) :
    ∃ t, exec c0 c1 s = some t ∧ c1 < RAM_N ∧
      (c1 < 0 → t.SR = -1 ∧ t.RAM = s.RAM ∧ t.REG = s.REG) ∧
      (0 ≤ c1 → arrGet RAM_N s.RAM c1 = some (s.RAM c1) ∧ t.SR = s.SR ∧
        (opc c0 = 1 → t.REG (nib c0) = s.RAM c1 ∧ t.RAM = s.RAM) ∧
        (opc c0 = 2 → t.RAM c1 = s.REG (nib c0) ∧ t.REG = s.REG)) := by
  have hlt : c1 < RAM_N := by unfold RAM_N; omega
  by_cases hx : c1 < 0
  · have hx2 : ({ s with CIR0 := c0, CIR1 := c1 } : CPU).CIR1 < 0 := hx
    have he : exec c0 c1 s = some { s with CIR0 := c0, CIR1 := c1, SR := SR_FAILURE } := by
      rcases hop with ho | ho
      · simp [exec, execute, ho, opRead_neg _ hx2]
      · simp [exec, execute, ho, opWrite_neg _ hx2]
    exact ⟨_, he, hlt, fun _ => ⟨rfl, rfl, rfl⟩, fun h => absurd hx (by omega)⟩
  · have h0 : 0 ≤ c1 := by omega
    have hg := arrGet_of_bounds RAM_N s.RAM c1 h0 hlt
    rcases hop with ho | ho
    · have hr := opRead_ok { s with CIR0 := c0, CIR1 := c1 } h0 hlt
      have he : exec c0 c1 s = opRead { s with CIR0 := c0, CIR1 := c1 } := by
        simp [exec, execute, ho]
      rw [hr] at he
      refine ⟨_, he, hlt, fun h => absurd h hx, fun _ => ⟨hg, rfl, fun _ => ⟨by simp, rfl⟩,
        fun h => ?_⟩⟩
      omega
    · have hw := opWrite_ok { s with CIR0 := c0, CIR1 := c1 } h0 hlt
      have he : exec c0 c1 s = opWrite { s with CIR0 := c0, CIR1 := c1 } := by
        simp [exec, execute, ho]
      rw [hw] at he
      refine ⟨_, he, hlt, fun h => absurd h hx, fun _ => ⟨hg, rfl, fun h => ?_,
        fun _ => ⟨by simp, rfl⟩⟩⟩
      omega

/-- C18, an instance at the largest address: with `RAM[127] = 9`, the Read `15 7F` loads 9
into register 5. -/
theorem read_write_in_bounds_witness :
    ∃ t, exec 0x15 0x7F (boot (fun i => if i = 127 then 9 else 0) []) = some t ∧
      t.REG 5 = 9 := by
  obtain ⟨t, h1, _, _, h2⟩ :=
    read_write_in_bounds (boot (fun i => if i = 127 then 9 else 0) []) 0x15 0x7F
      (Or.inl (by decide)) (by decide)
  exact ⟨t, h1, ((h2 (by decide)).2.2.1 (by decide)).1⟩

/-! ## Programs in memory -/

/-- C19: in a running state with program counter `p` in `0..124` whose memory holds
Write(R, a) at `p, p+1` and Read(R2, a) at `p+2, p+3`, with `a` in `0..127` different from
`p+2` and `p+3`, the two cycles succeed, the run loop performs both, and `REG[R2]` is then
the value `REG[R]` held at the start, with `SR` unchanged, still running. -/
theorem roundtrip_program (s : CPU) (R R2 a : Int) (hR : 0 ≤ R ∧ R ≤ 15)
    (hR2 : 0 ≤ R2 ∧ R2 ≤ 15) (hrun : s.SR > 0) (hp : 0 ≤ s.PC ∧ s.PC ≤ 124)
    (ha : 0 ≤ a ∧ a ≤ 127) (hne : a ≠ s.PC + 2 ∧ a ≠ s.PC + 3)
    (w0 : s.RAM s.PC = 0x20 + R) (w1 : s.RAM (s.PC + 1) = a)
    (r0 : s.RAM (s.PC + 2) = 0x10 + R2) (r1 : s.RAM (s.PC + 3) = a) :
    ∃ s1 s2, cycle s = some s1 ∧ cycle s1 = some s2 ∧ run 2 s = some s2 ∧
      s2.REG R2 = s.REG R ∧ s2.SR = s.SR ∧ s2.SR > 0 := by
  have o0 : opc (32 + R) = 2 := by unfold opc; omega
  have n0 : nib (32 + R) = R := by unfold nib; omega
  have o1 : opc (16 + R2) = 1 := by unfold opc; omega
  have n1 : nib (16 + R2) = R2 := by unfold nib; omega
  have ha1 : a < RAM_N := by unfold RAM_N; omega
  have tp : toByte (s.PC + 2) = s.PC + 2 := toByte_of_range _ (by omega) (by omega)
  -- first cycle: Write
  have c1 := cycle_of_bounds s hp.1 (by unfold RAM_N; omega)
  have ho : opc (fetched s).CIR0 = 2 := by simp only [fetched, w0]; exact o0
  have hw := opWrite_ok (fetched s) (by simp only [fetched, w1]; exact ha.1)
    (by simp only [fetched, w1]; exact ha1)
  have he : execute (fetched s) = opWrite (fetched s) := by simp [execute, ho]
  rw [he, hw] at c1
  obtain ⟨s1, c1, p1, q1, g1, m1, m2, m3⟩ : ∃ s1, cycle s = some s1 ∧ s1.PC = s.PC + 2 ∧
      s1.SR = s.SR ∧ s1.RAM a = s.REG R ∧ s1.RAM (s.PC + 2) = 16 + R2 ∧
      s1.RAM (s.PC + 3) = a ∧ s1.REG = s.REG := by
    refine ⟨_, c1, ?_, rfl, ?_, ?_, ?_, rfl⟩
    · simp [fetched, tp]
    · simp [fetched, w0, w1, n0]
    · have hx : ¬ s.PC + 2 = a := fun h => hne.1 h.symm
      simp [fetched, w1, hx, r0]
    · have hx : ¬ s.PC + 3 = a := fun h => hne.2 h.symm
      simp [fetched, w1, hx, r1]
  -- second cycle: Read
  have e3 : s1.PC + 1 = s.PC + 3 := by rw [p1]; omega
  have c2 := cycle_of_bounds s1 (by rw [p1]; omega) (by rw [p1]; unfold RAM_N; omega)
  have ho2 : opc (fetched s1).CIR0 = 1 := by simp only [fetched, p1, m1]; exact o1
  have hr := opRead_ok (fetched s1) (by simp only [fetched, e3, m2]; exact ha.1)
    (by simp only [fetched, e3, m2]; exact ha1)
  have he2 : execute (fetched s1) = opRead (fetched s1) := by simp [execute, ho2]
  rw [he2, hr] at c2
  obtain ⟨s2, c2, q2, g2⟩ : ∃ s2, cycle s1 = some s2 ∧ s2.SR = s.SR ∧
      s2.REG R2 = s.REG R := by
    have m2b : s1.RAM (s.PC + 2 + 1) = a := by
      rw [show s.PC + 2 + 1 = s.PC + 3 by omega]; exact m2
    refine ⟨_, c2, ?_, ?_⟩
    · simp [fetched, q1]
    · simp [fetched, p1, m1, m2b, n1, g1]
  have hrun1 : s1.SR > 0 := by omega
  refine ⟨s1, s2, c1, c2, ?_, g2, q2, by omega⟩
  rw [run_succ_of_cycle 1 s s1 hrun c1, run_succ_of_cycle 0 s1 s2 hrun1 c2]
  rfl

/-- C19, an instance: with `REG[1] = 42`, the program `21 10 12 10` (Write register 1 to
address 16, Read address 16 into register 2) gives `REG[2] = 42` and keeps running. -/
theorem roundtrip_program_witness :
    ∃ t, run 2 { boot (load [0x21, 0x10, 0x12, 0x10] (fun _ => 0)) [] with
                 REG := fun j => if j = 1 then 42 else 0 } = some t ∧
      t.REG 2 = 42 ∧ t.SR > 0 := by
  obtain ⟨_, t, _, _, h1, h2, _, h3⟩ :=
    roundtrip_program { boot (load [0x21, 0x10, 0x12, 0x10] (fun _ => 0)) [] with
                        REG := fun j => if j = 1 then 42 else 0 } 1 2 16
      (by decide) (by decide) (by decide) (by decide) (by decide) (by decide)
      (by decide) (by decide) (by decide) (by decide)
  exact ⟨t, h1, h2, h3⟩

/-- The side condition of the round trip is needed: in the program `20 02 11 02` (Write
register 0 to address 2, Read address 2 into register 1) with `REG[0] = 0` and `REG[1] = 5`,
the Write puts 0 over the first byte of the Read, which is then fetched as Halt: the run
stops with `SR = 0` and `REG[1]` still 5. -/
theorem roundtrip_program_overwritten :
    (run 2 { boot (load [0x20, 0x02, 0x11, 0x02] (fun _ => 0)) [] with
             REG := fun j => if j = 1 then 5 else 0 }).map
      (fun t => (t.SR, t.REG 0, t.REG 1, t.RAM 2))
      = some (0, 0, 5, 0) := by
  decide

/-- A cycle at `PC = 0` on the instruction `D0 00` returns to `PC = 0`. -/
theorem cycle_branch_to_self (s : CPU) (hpc : s.PC = 0) (m0 : s.RAM 0 = -48)
    (m1 : s.RAM 1 = 0) :
    ∃ t, cycle s = some t ∧ t.PC = 0 ∧ t.SR = s.SR ∧ t.REG = s.REG ∧ t.RAM = s.RAM := by
  have hc := cycle_of_bounds s (by rw [hpc]) (by rw [hpc]; decide)
  have ho : opc (fetched s).CIR0 = 13 := by
    simp only [fetched, hpc, m0]; decide
  have hn : nib (fetched s).CIR0 = 0 := by
    simp only [fetched, hpc, m0]; decide
  have he : execute (fetched s) = some { fetched s with PC := (fetched s).CIR1 } := by
    simp [execute, ho, opBranch, hn]
  rw [he] at hc
  exact ⟨_, hc, by simp [fetched, hpc, m1], rfl, rfl, rfl⟩

theorem run_branch_to_self (n : Nat) (s : CPU) (hsr : s.SR = 1) (hpc : s.PC = 0)
    (m0 : s.RAM 0 = -48) (m1 : s.RAM 1 = 0) :
    ∃ t, run n s = some t ∧ t.SR = 1 ∧ t.PC = 0 ∧ t.REG = s.REG ∧ t.RAM = s.RAM := by
  induction n generalizing s with
  | zero => exact ⟨s, rfl, hsr, hpc, rfl, rfl⟩
  | succ k ih =>
    obtain ⟨u, hc, p, q, g, m⟩ := cycle_branch_to_self s hpc m0 m1
    obtain ⟨t, hr, a, b, c, d⟩ :=
      ih u (by rw [q, hsr]) p (by rw [m]; exact m0) (by rw [m]; exact m1)
    refine ⟨t, ?_, a, b, c.trans g, d.trans m⟩
    rw [run_succ_of_cycle k s u (by omega) hc]
    exact hr

/-- C20: on every memory image whose first two bytes are `D0 00` (unconditional Branch to
address 0), for every `n` the run loop performs `n` cycles from the initial state and the
state after them has `SR = 1` and `PC = 0`, with the registers and the memory as at the
start: the run reaches no halted state. -/
theorem branch_loop_forever (RAM : Int → Int) (inp : List Tok) (m0 : RAM 0 = toByte 0xD0)
    (m1 : RAM 1 = 0) (n : Nat) :
    ∃ t, run n (boot RAM inp) = some t ∧ t.SR = 1 ∧ t.PC = 0 ∧ t.SR > 0 ∧
      t.REG = (boot RAM inp).REG ∧ t.RAM = RAM := by
  have e0 : RAM 0 = -48 := by rw [m0]; decide
  obtain ⟨t, h1, h2, h3, h4, h5⟩ := run_branch_to_self n (boot RAM inp) rfl rfl e0 m1
  exact ⟨t, h1, h2, h3, by omega, h4, h5⟩

/-- C20, an instance: the image `D0 00` is still running at address 0 after a thousand
cycles. -/
theorem branch_loop_forever_witness :
    ∃ t, run 1000 (boot (load [0xD0, 0x00] (fun _ => 0)) []) = some t ∧ t.SR = 1 ∧
      t.PC = 0 := by
  obtain ⟨t, h1, h2, h3, _⟩ :=
    branch_loop_forever (load [0xD0, 0x00] (fun _ => 0)) [] (by decide) (by decide) 1000
  exact ⟨t, h1, h2, h3⟩

end Nibble
